import Mathlib

set_option maxHeartbeats 1000000
set_option maxRecDepth 100000

/-!
Verification of the all-pairs shortest path engine in src/floyd_warshall.cc.

The source function floydWarshall takes an int vertex count and a vector of
(u, v, weight) int triples, builds a dist matrix (INT_MAX off diagonal, 0 on
the diagonal, then one write per edge in input order) and a next matrix (-1
everywhere, then the destination per edge), runs the triple k/i/j relaxation
with the INT_MAX reachability guard, and derives a negative-cycle flag from
the diagonal.

Two embeddings are given.  The primary one, floydWarshall, keeps the
matrices as total functions over Nat indices and materialises the returned
vector-of-vectors at the end; int addition in the relaxation is modelled with
32-bit two-complement wraparound (wrap32), since the source adds raw int
values.  The second, floydWarshallChecked, keeps the matrices as
List (List Int) and threads every single element access through Option, so
that an out-of-bounds vector access inside the engine would surface as none;
it is proved to agree with the primary embedding on in-range inputs.
-/

namespace FW

/-- Sentinel INT_MAX from climits, the infinity marker of the source. -/
def INF : Int := 2147483647

/-- Wraparound of 32-bit signed int arithmetic, applied to the sum
dist i k + dist k j in the relaxation, which the source computes in raw
int arithmetic. -/
def wrap32 (x : Int) : Int := (x + 2147483648) % 4294967296 - 2147483648

/-- Pointwise update of a function-represented matrix at one cell, the
counterpart of an assignment to a vector-of-vectors element. -/
def update2 (f : Nat → Nat → Int) (i j : Nat) (x : Int) : Nat → Nat → Int :=
  fun a b => if a = i ∧ b = j then x else f a b

/-- An input edge (source, destination, weight), modelling the source
tuple of ints with in-range endpoints as naturals. -/
def Edge : Type := Nat × Nat × Int

/-- Effective weight of the cell (u, v) after the edge-initialisation loop:
the weight of the last input edge from u to v, if any (later edges
overwrite earlier ones, exactly as the loop at lines 36-41 does). -/
def lastW (edges : List (Nat × Nat × Int)) (u v : Nat) : Option Int :=
  edges.foldl (fun acc e => if e.1 = u ∧ e.2.1 = v then some e.2.2 else acc) none

/-- Algorithm state: the dist matrix and the next matrix. -/
structure Mats where
  dist : Nat → Nat → Int
  next : Nat → Nat → Int

/-- One iteration of the innermost loop body (lines 45-48): relax cell
(i, j) through the intermediate vertex k. -/
def relaxStep (k i j : Nat) (m : Mats) : Mats :=
  if m.dist i k ≠ INF ∧ m.dist k j ≠ INF ∧ wrap32 (m.dist i k + m.dist k j) < m.dist i j then
    { dist := update2 m.dist i j (wrap32 (m.dist i k + m.dist k j)),
      next := update2 m.next i j (m.next i k) }
  else m

/-- The loop over j for fixed k and i. -/
def relaxInner (n k i : Nat) (m : Mats) : Mats :=
  (List.range n).foldl (fun s j => relaxStep k i j s) m

/-- The loop over i for fixed k. -/
def relaxK (n k : Nat) (m : Mats) : Mats :=
  (List.range n).foldl (fun s i => relaxInner n k i s) m

/-- The outer loop over the intermediate vertex k (lines 42-51). -/
def fwLoop (n : Nat) (m : Mats) : Mats :=
  (List.range n).foldl (fun s k => relaxK n k s) m

/-- Matrices as constructed at lines 30-31: dist filled with INT_MAX and
next filled with -1. -/
def initMats : Mats :=
  { dist := fun _ _ => INF, next := fun _ _ => -1 }

/-- The diagonal loop at lines 33-35: dist i i = 0 for i below n. -/
def setDiag (n : Nat) (m : Mats) : Mats :=
  (List.range n).foldl (fun s i => { s with dist := update2 s.dist i i 0 }) m

/-- The edge loop at lines 36-41: for each edge write its weight into dist
and its destination into next, in input order. -/
def addEdges (edges : List (Nat × Nat × Int)) (m : Mats) : Mats :=
  edges.foldl
    (fun s e =>
      { dist := update2 s.dist e.1 e.2.1 e.2.2,
        next := update2 s.next e.1 e.2.1 (e.2.1 : Int) }) m

/-- Full initialisation of the two matrices (lines 30-41). -/
def fwInit (n : Nat) (edges : List (Nat × Nat × Int)) : Mats :=
  addEdges edges (setDiag n initMats)

/-- The negative-cycle scan at lines 52-58: the flag accumulates whether
some diagonal entry is negative (the early break of the source does not
change the resulting boolean). -/
def negCycleFlag (n : Nat) (d : Nat → Nat → Int) : Bool :=
  (List.range n).foldl (fun b i => b || decide (d i i < 0)) false

/-- Materialise a function-represented square matrix as the returned
vector of vectors. -/
def toMat (n : Nat) (f : Nat → Nat → Int) : List (List Int) :=
  (List.range n).map (fun i => (List.range n).map (f i))

/-- Prefix of the outer loop: the state after the first s values of the
intermediate vertex k have been processed. -/
def runStages (n : Nat) (edges : List (Nat × Nat × Int)) (s : Nat) : Mats :=
  (List.range s).foldl (fun m k => relaxK n k m) (fwInit n edges)

/-- The whole engine (lines 29-61): returns ((dist, next), negativeCycle). -/
def floydWarshall (n : Nat) (edges : List (Nat × Nat × Int)) :
    (List (List Int) × List (List Int)) × Bool :=
  let m := fwLoop n (fwInit n edges)
  ((toMat n m.dist, toMat n m.next), negCycleFlag n m.dist)

/-- Bounds-checked read of one matrix element. -/
def getM (m : List (List Int)) (i j : Nat) : Option Int :=
  (m.get? i).bind fun row => row.get? j

/-- Bounds-checked write of one matrix element; none signals an access
outside the allocated vectors. -/
def setM (m : List (List Int)) (i j : Nat) (x : Int) : Option (List (List Int)) := do
  let row ← m.get? i
  let _ ← row.get? j
  pure (m.set i (row.set j x))

/-- Checked-state counterpart of Mats: the two concrete matrices. -/
def MatsC : Type := List (List Int) × List (List Int)

/-- Lines 30-31 for the checked embedding: n rows of n sentinel entries. -/
def initMatsC (n : Nat) : MatsC :=
  (List.replicate n (List.replicate n INF), List.replicate n (List.replicate n (-1)))

/-- Lines 33-35 for the checked embedding. -/
def setDiagC (n : Nat) (m : MatsC) : Option MatsC :=
  (List.range n).foldlM
    (fun s i => do
      let d ← setM s.1 i i 0
      pure (d, s.2)) m

/-- Lines 36-41 for the checked embedding. -/
def addEdgesC (edges : List (Nat × Nat × Int)) (m : MatsC) : Option MatsC :=
  edges.foldlM
    (fun s e => do
      let d ← setM s.1 e.1 e.2.1 e.2.2
      let t ← setM s.2 e.1 e.2.1 (e.2.1 : Int)
      pure (d, t)) m

/-- Lines 45-48 for the checked embedding: every element access is a
checked read or write. -/
def relaxStepC (k i j : Nat) (m : MatsC) : Option MatsC := do
  let a ← getM m.1 i k
  let b ← getM m.1 k j
  let c ← getM m.1 i j
  if a ≠ INF ∧ b ≠ INF ∧ wrap32 (a + b) < c then do
    let nik ← getM m.2 i k
    let d ← setM m.1 i j (wrap32 (a + b))
    let t ← setM m.2 i j nik
    pure (d, t)
  else pure m

/-- Checked loop over j. -/
def relaxInnerC (n k i : Nat) (m : MatsC) : Option MatsC :=
  (List.range n).foldlM (fun s j => relaxStepC k i j s) m

/-- Checked loop over i. -/
def relaxKC (n k : Nat) (m : MatsC) : Option MatsC :=
  (List.range n).foldlM (fun s i => relaxInnerC n k i s) m

/-- Checked loop over k. -/
def fwLoopC (n : Nat) (m : MatsC) : Option MatsC :=
  (List.range n).foldlM (fun s k => relaxKC n k s) m

/-- Checked negative-cycle scan. -/
def negCycleFlagC (n : Nat) (d : List (List Int)) : Option Bool :=
  (List.range n).foldlM
    (fun b i => do
      let x ← getM d i i
      pure (b || decide (x < 0))) false

/-- The whole engine in the checked embedding: any out-of-bounds element
access anywhere yields none. -/
def floydWarshallChecked (n : Nat) (edges : List (Nat × Nat × Int)) :
    Option ((List (List Int) × List (List Int)) × Bool) := do
  let m1 ← setDiagC n (initMatsC n)
  let m2 ← addEdgesC edges m1
  let m3 ← fwLoopC n m2
  let flag ← negCycleFlagC n m3.1
  pure ((m3.1, m3.2), flag)

/-- Conversion applied by the vector size constructor at line 30 when it
receives the int numVertices as a std size type: reduction modulo 2 to the
64, so a negative count becomes an enormous allocation request instead of
being rejected. -/
def cppSizeT (x : Int) : Nat := (x % 18446744073709551616).toNat

/-- Chains of consecutive edges in the weighted graph given by the effective
weight function W: IsChain W a l c states that starting at vertex a and
stepping through the vertices of l in order, every step is an edge of W and
the weights sum to c. -/
inductive IsChain (W : Nat → Nat → Option Int) : Nat → List Nat → Int → Prop where
  | nil (a : Nat) : IsChain W a [] 0
  | cons {a b : Nat} {w : Int} {l : List Nat} {c : Int}
      (hw : W a b = some w) (h : IsChain W b l c) : IsChain W a (b :: l) (w + c)

/-- A walk from i to j whose list of intermediate vertices is exactly L and
whose total weight is c: either the trivial zero-length walk (i = j), or a
chain of edges from i through L ending at j. -/
def HasWalk (W : Nat → Nat → Option Int) (i j : Nat) (L : List Nat) (c : Int) : Prop :=
  (i = j ∧ L = [] ∧ c = 0) ∨ IsChain W i (L ++ [j]) c

/-- The graph has no negative cycle: every closed walk has nonnegative
weight. -/
def NoNegCycle (W : Nat → Nat → Option Int) : Prop :=
  ∀ i L c, HasWalk W i i L c → 0 ≤ c

/-- Vertex j is reachable from vertex i. -/
def Reaches (W : Nat → Nat → Option Int) (i j : Nat) : Prop :=
  ∃ L c, HasWalk W i j L c

/-- The value c is the true shortest-path weight from i to j: it is attained
by some walk and is a lower bound of the weight of every walk. -/
def IsShortest (W : Nat → Nat → Option Int) (i j : Nat) (c : Int) : Prop :=
  (∃ L, HasWalk W i j L c) ∧ ∀ L d, HasWalk W i j L d → c ≤ d

/-! Basic facts about the sentinel, wraparound and cell updates. -/

theorem INF_eq : INF = 2147483647 := rfl

theorem wrap32_lb (x : Int) : -2147483648 ≤ wrap32 x := by
  have h : (0 : Int) ≤ (x + 2147483648) % 4294967296 :=
    Int.emod_nonneg _ (by norm_num)
  unfold wrap32
  omega

theorem wrap32_ub (x : Int) : wrap32 x ≤ INF := by
  have h : (x + 2147483648) % 4294967296 < 4294967296 :=
    Int.emod_lt_of_pos _ (by norm_num)
  unfold wrap32 INF
  omega

theorem wrap32_eq_self {x : Int} (h1 : -2147483648 ≤ x) (h2 : x ≤ INF) : wrap32 x = x := by
  rw [INF_eq] at h2
  unfold wrap32
  have h : (x + 2147483648) % 4294967296 = x + 2147483648 :=
    Int.emod_eq_of_lt (by omega) (by omega)
  omega

theorem update2_self (f : Nat → Nat → Int) (i j : Nat) (x : Int) :
    update2 f i j x i j = x := by
  simp [update2]

theorem update2_other (f : Nat → Nat → Int) (i j : Nat) (x : Int) {a b : Nat}
    (h : ¬(a = i ∧ b = j)) : update2 f i j x a b = f a b := by
  simp only [update2, if_neg h]

/-! Monotonicity: relaxation never increases a dist entry. -/

theorem foldl_dist_le {α : Type} (g : Mats → α → Mats)
    (hg : ∀ s a i j, (g s a).dist i j ≤ s.dist i j) :
    ∀ (l : List α) (s : Mats) (i j : Nat), (l.foldl g s).dist i j ≤ s.dist i j := by
  intro l
  induction l with
  | nil => intro s i j; exact le_refl _
  | cons a l ih =>
      intro s i j
      exact le_trans (ih (g s a) i j) (hg s a i j)

theorem relaxStep_dist_le (k i j : Nat) (m : Mats) (a b : Nat) :
    (relaxStep k i j m).dist a b ≤ m.dist a b := by
  by_cases h : m.dist i k ≠ INF ∧ m.dist k j ≠ INF ∧
      wrap32 (m.dist i k + m.dist k j) < m.dist i j
  · simp only [relaxStep, if_pos h]
    by_cases hab : a = i ∧ b = j
    · obtain ⟨ha, hb⟩ := hab
      subst ha; subst hb
      rw [update2_self]
      exact le_of_lt h.2.2
    · rw [update2_other _ _ _ _ hab]
  · simp only [relaxStep, if_neg h]
    exact le_refl _

theorem relaxInner_dist_le (n k i : Nat) (m : Mats) (a b : Nat) :
    (relaxInner n k i m).dist a b ≤ m.dist a b :=
  foldl_dist_le _ (fun s x c d => relaxStep_dist_le k i x s c d) (List.range n) m a b

theorem relaxK_dist_le (n k : Nat) (m : Mats) (a b : Nat) :
    (relaxK n k m).dist a b ≤ m.dist a b :=
  foldl_dist_le _ (fun s x c d => relaxInner_dist_le n k x s c d) (List.range n) m a b

theorem fwLoop_dist_le (n : Nat) (m : Mats) (a b : Nat) :
    (fwLoop n m).dist a b ≤ m.dist a b :=
  foldl_dist_le _ (fun s x c d => relaxK_dist_le n x s c d) (List.range n) m a b

theorem runStages_succ (n : Nat) (edges : List (Nat × Nat × Int)) (s : Nat) :
    runStages n edges (s + 1) = relaxK n s (runStages n edges s) := by
  unfold runStages
  rw [List.range_succ, List.foldl_append]
  rfl

theorem runStages_dist_le (n : Nat) (edges : List (Nat × Nat × Int)) {s t : Nat}
    (h : s ≤ t) (a b : Nat) :
    (runStages n edges t).dist a b ≤ (runStages n edges s).dist a b := by
  induction t with
  | zero => cases Nat.le_zero.mp h; exact le_refl _
  | succ t ih =>
      rcases Nat.lt_or_ge s (t + 1) with hlt | hge
      · have hle : s ≤ t := Nat.lt_succ_iff.mp hlt
        calc (runStages n edges (t + 1)).dist a b
            ≤ (runStages n edges t).dist a b := by
              rw [runStages_succ]; exact relaxK_dist_le n t _ a b
          _ ≤ (runStages n edges s).dist a b := ih hle
      · have : s = t + 1 := Nat.le_antisymm h hge
        subst this
        exact le_refl _

theorem fwLoop_eq_runStages (n : Nat) (edges : List (Nat × Nat × Int)) :
    fwLoop n (fwInit n edges) = runStages n edges n := rfl

/-! The negative-cycle scan. -/

theorem foldl_or_any (p : Nat → Bool) :
    ∀ (l : List Nat) (b : Bool), l.foldl (fun b i => b || p i) b = (b || l.any p) := by
  intro l
  induction l with
  | nil => intro b; simp
  | cons a l ih => intro b; simp [ih, Bool.or_assoc]

theorem negCycleFlag_iff (n : Nat) (d : Nat → Nat → Int) :
    negCycleFlag n d = true ↔ ∃ i, i < n ∧ d i i < 0 := by
  unfold negCycleFlag
  rw [foldl_or_any]
  simp [List.any_eq_true, List.mem_range]

/-! Last-edge-wins characterisation of the initialisation. -/

theorem lastW_foldl (u v : Nat) :
    ∀ (es : List (Nat × Nat × Int)) (acc : Option Int),
      es.foldl (fun a e => if e.1 = u ∧ e.2.1 = v then some e.2.2 else a) acc =
        match lastW es u v with
        | some w => some w
        | none => acc := by
  intro es
  induction es with
  | nil => intro acc; rfl
  | cons e es ih =>
      intro acc
      show es.foldl _ (if e.1 = u ∧ e.2.1 = v then some e.2.2 else acc) = _
      rw [ih]
      have hl : lastW (e :: es) u v =
          match lastW es u v with
          | some w => some w
          | none => if e.1 = u ∧ e.2.1 = v then some e.2.2 else none := by
        show es.foldl _ (if e.1 = u ∧ e.2.1 = v then some e.2.2 else none) = _
        rw [ih]
      rw [hl]
      cases lastW es u v with
      | some w => rfl
      | none =>
          by_cases hc : e.1 = u ∧ e.2.1 = v
          · simp only [if_pos hc]
          · simp only [if_neg hc]

theorem lastW_cons (e : Nat × Nat × Int) (es : List (Nat × Nat × Int)) (u v : Nat) :
    lastW (e :: es) u v =
      match lastW es u v with
      | some w => some w
      | none => if e.1 = u ∧ e.2.1 = v then some e.2.2 else none := by
  show es.foldl _ (if e.1 = u ∧ e.2.1 = v then some e.2.2 else none) = _
  rw [lastW_foldl]

theorem lastW_mem {es : List (Nat × Nat × Int)} {u v : Nat} {w : Int}
    (h : lastW es u v = some w) : (u, v, w) ∈ es := by
  induction es with
  | nil => exact absurd h (by simp [lastW])
  | cons e es ih =>
      rw [lastW_cons] at h
      cases hes : lastW es u v with
      | some w' =>
          rw [hes] at h
          cases h
          exact List.mem_cons_of_mem _ (ih hes)
      | none =>
          rw [hes] at h
          by_cases hc : e.1 = u ∧ e.2.1 = v
          · rw [if_pos hc] at h
            cases h
            have he : (u, v, e.2.2) = e := by
              rw [← hc.1, ← hc.2]
            rw [he]
            exact List.mem_cons_self e es
          · rw [if_neg hc] at h
            cases h

theorem lastW_eq_none {es : List (Nat × Nat × Int)} {u v : Nat}
    (h : ∀ e ∈ es, ¬(e.1 = u ∧ e.2.1 = v)) : lastW es u v = none := by
  induction es with
  | nil => rfl
  | cons e es ih =>
      rw [lastW_cons, ih (fun e he => h e (List.mem_cons_of_mem _ he)),
        if_neg (h e (List.mem_cons_self e es))]

theorem lastW_append_last {es1 es2 : List (Nat × Nat × Int)} {u v : Nat} {w : Int}
    (h : ∀ e ∈ es2, ¬(e.1 = u ∧ e.2.1 = v)) :
    lastW (es1 ++ (u, v, w) :: es2) u v = some w := by
  induction es1 with
  | nil =>
      rw [List.nil_append, lastW_cons, lastW_eq_none h]
      simp
  | cons e es1 ih =>
      rw [List.cons_append, lastW_cons, ih]

theorem setDiag_foldl_dist (l : List Nat) :
    ∀ (m : Mats) (a b : Nat),
      ((l.foldl (fun s i => { s with dist := update2 s.dist i i 0 }) m).dist a b =
        if a = b ∧ a ∈ l then 0 else m.dist a b) := by
  induction l with
  | nil => intro m a b; simp
  | cons x l ih =>
      intro m a b
      show ((l.foldl _ { m with dist := update2 m.dist x x 0 }).dist a b = _)
      rw [ih]
      by_cases hab : a = b ∧ a ∈ x :: l
      · rw [if_pos hab]
        obtain ⟨hab1, hab2⟩ := hab
        subst hab1
        rcases List.mem_cons.mp hab2 with hx | hl
        · subst hx
          by_cases hmem : a = a ∧ a ∈ l
          · rw [if_pos hmem]
          · rw [if_neg hmem]
            exact update2_self _ _ _ _
        · rw [if_pos ⟨rfl, hl⟩]
      · rw [if_neg hab]
        have h1 : ¬(a = b ∧ a ∈ l) := fun ⟨h1, h2⟩ => hab ⟨h1, List.mem_cons_of_mem _ h2⟩
        rw [if_neg h1]
        apply update2_other
        intro ⟨h2, h3⟩
        exact hab ⟨h2.trans h3.symm, h2 ▸ List.mem_cons_self x l⟩

theorem setDiag_foldl_next (l : List Nat) :
    ∀ (m : Mats), (l.foldl (fun s i => { s with dist := update2 s.dist i i 0 }) m).next = m.next := by
  induction l with
  | nil => intro m; rfl
  | cons x l ih => intro m; exact ih _

theorem setDiag_dist (n : Nat) (m : Mats) (a b : Nat) :
    (setDiag n m).dist a b = if a = b ∧ a < n then 0 else m.dist a b := by
  unfold setDiag
  rw [setDiag_foldl_dist]
  simp [List.mem_range]

theorem addEdges_dist (u v : Nat) :
    ∀ (es : List (Nat × Nat × Int)) (m : Mats),
      (addEdges es m).dist u v =
        match lastW es u v with
        | some w => w
        | none => m.dist u v := by
  intro es
  induction es with
  | nil => intro m; rfl
  | cons e es ih =>
      intro m
      show (addEdges es _).dist u v = _
      rw [ih, lastW_cons]
      cases lastW es u v with
      | some w => rfl
      | none =>
          show update2 m.dist e.1 e.2.1 e.2.2 u v = _
          by_cases hc : e.1 = u ∧ e.2.1 = v
          · rw [if_pos hc]
            obtain ⟨h1, h2⟩ := hc
            subst h1; subst h2
            exact update2_self _ _ _ _
          · rw [if_neg hc]
            apply update2_other
            intro ⟨h1, h2⟩
            exact hc ⟨h1.symm, h2.symm⟩

theorem addEdges_next (u v : Nat) :
    ∀ (es : List (Nat × Nat × Int)) (m : Mats),
      (addEdges es m).next u v =
        match lastW es u v with
        | some _ => (v : Int)
        | none => m.next u v := by
  intro es
  induction es with
  | nil => intro m; rfl
  | cons e es ih =>
      intro m
      show (addEdges es _).next u v = _
      rw [ih, lastW_cons]
      cases lastW es u v with
      | some w => rfl
      | none =>
          show update2 m.next e.1 e.2.1 (e.2.1 : Int) u v = _
          by_cases hc : e.1 = u ∧ e.2.1 = v
          · rw [if_pos hc]
            obtain ⟨h1, h2⟩ := hc
            subst h1; subst h2
            exact update2_self _ _ _ _
          · rw [if_neg hc]
            apply update2_other
            intro ⟨h1, h2⟩
            exact hc ⟨h1.symm, h2.symm⟩

theorem fwInit_dist (n : Nat) (edges : List (Nat × Nat × Int)) (u v : Nat) :
    (fwInit n edges).dist u v =
      match lastW edges u v with
      | some w => w
      | none => if u = v ∧ u < n then 0 else INF := by
  unfold fwInit
  rw [addEdges_dist]
  cases lastW edges u v with
  | some w => rfl
  | none => rw [setDiag_dist]; rfl

theorem fwInit_next (n : Nat) (edges : List (Nat × Nat × Int)) (u v : Nat) :
    (fwInit n edges).next u v =
      match lastW edges u v with
      | some _ => (v : Int)
      | none => -1 := by
  unfold fwInit
  rw [addEdges_next]
  cases lastW edges u v with
  | some w => rfl
  | none =>
      show (setDiag n initMats).next u v = _
      unfold setDiag
      rw [setDiag_foldl_next]
      rfl

/-! Reading the materialised matrices. -/

theorem toMat_get {n i : Nat} (f : Nat → Nat → Int) (hi : i < n) :
    (toMat n f).get? i = some ((List.range n).map (f i)) := by
  unfold toMat
  rw [List.get?_map, List.get?_range hi]
  rfl

theorem getM_toMat {n i j : Nat} (f : Nat → Nat → Int) (hi : i < n) (hj : j < n) :
    getM (toMat n f) i j = some (f i j) := by
  unfold getM
  rw [toMat_get f hi]
  show ((List.range n).map (f i)).get? j = some (f i j)
  rw [List.get?_map, List.get?_range hj]
  rfl

/-! Agreement of the checked embedding with the functional one. -/

theorem opt_bind_some {α β : Type} (x : α) (f : α → Option β) :
    (some x >>= f) = f x := rfl

theorem list_set_get {α : Type} :
    ∀ (l : List α) (j : Nat) (x : α) (a : Nat),
      (l.set j x).get? a = if a = j ∧ j < l.length then some x else l.get? a := by
  intro l
  induction l with
  | nil => intro j x a; simp
  | cons y l ih =>
      intro j x a
      cases j with
      | zero =>
          cases a with
          | zero => simp
          | succ a => simp
      | succ j =>
          cases a with
          | zero => simp
          | succ a =>
              show (l.set j x).get? a = _
              rw [ih]
              by_cases h : a = j ∧ j < l.length
              · rw [if_pos h, if_pos ⟨by omega, by simp; omega⟩]
              · rw [if_neg h, if_neg (by simp; omega)]
                rfl

theorem toMat_length (n : Nat) (f : Nat → Nat → Int) : (toMat n f).length = n := by
  simp [toMat]

theorem get?_map_range {n a : Nat} (g : Nat → Int) :
    ((List.range n).map g).get? a = if a < n then some (g a) else none := by
  by_cases ha : a < n
  · rw [if_pos ha, List.get?_map, List.get?_range ha]
    rfl
  · rw [if_neg ha, List.get?_map]
    have h2 : (List.range n).get? a = none := by
      rw [List.get?_eq_none, List.length_range]
      exact Nat.le_of_not_lt ha
    rw [h2]
    rfl

theorem set_map_range {n j : Nat} (g : Nat → Int) (x : Int) (hj : j < n) :
    ((List.range n).map g).set j x =
      (List.range n).map (fun b => if b = j then x else g b) := by
  apply List.ext
  intro a
  rw [list_set_get]
  by_cases ha : a < n
  · by_cases haj : a = j
    · subst haj
      rw [if_pos ⟨rfl, by rw [List.length_map, List.length_range]; exact hj⟩,
        get?_map_range, if_pos ha]
      simp
    · rw [if_neg (fun hh => haj hh.1), get?_map_range, get?_map_range, if_pos ha, if_pos ha]
      simp [haj]
  · rw [if_neg (by rintro ⟨rfl, _⟩; exact ha hj), get?_map_range, get?_map_range,
      if_neg ha, if_neg ha]

theorem setM_toMat {n i j : Nat} (f : Nat → Nat → Int) (x : Int) (hi : i < n) (hj : j < n) :
    setM (toMat n f) i j x = some (toMat n (update2 f i j x)) := by
  have h2 : (List.map (f i) (List.range n)).get? j = some (f i j) := by
    rw [List.get?_map, List.get?_range hj]
    rfl
  simp only [setM, toMat_get f hi, opt_bind_some, h2]
  show some _ = some _
  congr 1
  rw [set_map_range (f i) x hj]
  apply List.ext
  intro a
  rw [list_set_get]
  by_cases ha : a < n
  · by_cases hai : a = i
    · subst hai
      rw [if_pos ⟨rfl, by rw [toMat_length]; exact hi⟩, toMat_get _ ha]
      congr 1
      apply List.map_congr_left
      intro b _
      unfold update2
      by_cases hbj : b = j
      · rw [if_pos hbj, if_pos ⟨rfl, hbj⟩]
      · rw [if_neg hbj, if_neg (fun hh => hbj hh.2)]
    · rw [if_neg (by rintro ⟨h', _⟩; exact hai h'), toMat_get f ha, toMat_get _ ha]
      congr 1
      apply List.map_congr_left
      intro b _
      rw [update2_other _ _ _ _ (fun hh => hai hh.1)]
  · rw [if_neg (by rintro ⟨h', _⟩; subst h'; exact ha hi)]
    have hnone1 : (toMat n f).get? a = none := by
      rw [List.get?_eq_none, toMat_length]
      exact Nat.le_of_not_lt ha
    have hnone2 : (toMat n (update2 f i j x)).get? a = none := by
      rw [List.get?_eq_none, toMat_length]
      exact Nat.le_of_not_lt ha
    rw [hnone1, hnone2]

theorem initMatsC_eq (n : Nat) :
    initMatsC n = (toMat n (fun _ _ => INF), toMat n (fun _ _ => (-1 : Int))) := by
  have h1 : ∀ c : Int,
      (List.range n).map (fun i => (List.range n).map ((fun _ _ => c) i)) =
        List.replicate n (List.replicate n c) := by
    intro c
    simp [List.map_const', List.length_range]
  unfold initMatsC toMat
  rw [h1 INF, h1 (-1)]

theorem foldlM_some_of_rel {α β γ : Type} (R : β → γ → Prop) (fC : β → α → Option β)
    (fT : γ → α → γ) :
    ∀ (l : List α) (s : β) (t : γ), R s t →
      (∀ s' t' a, a ∈ l → R s' t' → ∃ s'', fC s' a = some s'' ∧ R s'' (fT t' a)) →
      ∃ s'', l.foldlM fC s = some s'' ∧ R s'' (l.foldl fT t) := by
  intro l
  induction l with
  | nil => intro s t hR _; exact ⟨s, rfl, hR⟩
  | cons a l ih =>
      intro s t hR hstep
      obtain ⟨s1, hs1, hR1⟩ := hstep s t a (List.mem_cons_self _ _) hR
      obtain ⟨s2, hs2, hR2⟩ :=
        ih s1 (fT t a) hR1 (fun s' t' b hb => hstep s' t' b (List.mem_cons_of_mem _ hb))
      refine ⟨s2, ?_, hR2⟩
      rw [List.foldlM_cons, hs1]
      exact hs2

theorem setDiagC_eq (n : Nat) (m : Mats) :
    setDiagC n (toMat n m.dist, toMat n m.next) =
      some (toMat n (setDiag n m).dist, toMat n (setDiag n m).next) := by
  have hstep : ∀ (s : MatsC) (t : Mats) (i : Nat), i ∈ List.range n →
      (s.1 = toMat n t.dist ∧ s.2 = toMat n t.next) →
      ∃ s'', (do
          let d ← setM s.1 i i 0
          pure (d, s.2) : Option MatsC) = some s'' ∧
        (s''.1 = toMat n ({ t with dist := update2 t.dist i i 0 } : Mats).dist ∧
          s''.2 = toMat n ({ t with dist := update2 t.dist i i 0 } : Mats).next) := by
    intro s t i hi hR
    have hiN : i < n := List.mem_range.mp hi
    refine ⟨(toMat n (update2 t.dist i i 0), s.2), ?_, rfl, hR.2⟩
    rw [hR.1]
    rw [setM_toMat t.dist 0 hiN hiN]
    rfl
  obtain ⟨c', hc', h1, h2⟩ :=
    foldlM_some_of_rel
      (fun (c : MatsC) (mm : Mats) => c.1 = toMat n mm.dist ∧ c.2 = toMat n mm.next)
      (fun s i => do
        let d ← setM s.1 i i 0
        pure (d, s.2))
      (fun s i => { s with dist := update2 s.dist i i 0 })
      (List.range n) (toMat n m.dist, toMat n m.next) m ⟨rfl, rfl⟩ hstep
  have hc : c' = (toMat n (setDiag n m).dist, toMat n (setDiag n m).next) :=
    Prod.ext h1 h2
  exact hc ▸ hc'

theorem addEdgesC_eq (n : Nat) (edges : List (Nat × Nat × Int))
    (h : ∀ e ∈ edges, e.1 < n ∧ e.2.1 < n) (m : Mats) :
    addEdgesC edges (toMat n m.dist, toMat n m.next) =
      some (toMat n (addEdges edges m).dist, toMat n (addEdges edges m).next) := by
  have hstep : ∀ (s : MatsC) (t : Mats) (e : Nat × Nat × Int), e ∈ edges →
      (s.1 = toMat n t.dist ∧ s.2 = toMat n t.next) →
      ∃ s'', (do
          let d ← setM s.1 e.1 e.2.1 e.2.2
          let t' ← setM s.2 e.1 e.2.1 (e.2.1 : Int)
          pure (d, t') : Option MatsC) = some s'' ∧
        (s''.1 = toMat n (Mats.mk (update2 t.dist e.1 e.2.1 e.2.2)
            (update2 t.next e.1 e.2.1 (e.2.1 : Int))).dist ∧
          s''.2 = toMat n (Mats.mk (update2 t.dist e.1 e.2.1 e.2.2)
            (update2 t.next e.1 e.2.1 (e.2.1 : Int))).next) := by
    intro s t e he hR
    obtain ⟨he1, he2⟩ := h e he
    refine ⟨(toMat n (update2 t.dist e.1 e.2.1 e.2.2),
             toMat n (update2 t.next e.1 e.2.1 (e.2.1 : Int))), ?_, rfl, rfl⟩
    rw [hR.1, hR.2]
    rw [setM_toMat t.dist e.2.2 he1 he2]
    show (some (toMat n (update2 t.dist e.1 e.2.1 e.2.2)) >>= _) = _
    rw [opt_bind_some]
    rw [setM_toMat t.next (e.2.1 : Int) he1 he2]
    rfl
  obtain ⟨c', hc', h1, h2⟩ :=
    foldlM_some_of_rel
      (fun (c : MatsC) (mm : Mats) => c.1 = toMat n mm.dist ∧ c.2 = toMat n mm.next)
      (fun s e => do
        let d ← setM s.1 e.1 e.2.1 e.2.2
        let t' ← setM s.2 e.1 e.2.1 (e.2.1 : Int)
        pure (d, t'))
      (fun s e =>
        { dist := update2 s.dist e.1 e.2.1 e.2.2,
          next := update2 s.next e.1 e.2.1 (e.2.1 : Int) })
      edges (toMat n m.dist, toMat n m.next) m ⟨rfl, rfl⟩ hstep
  have hc : c' = (toMat n (addEdges edges m).dist, toMat n (addEdges edges m).next) :=
    Prod.ext h1 h2
  exact hc ▸ hc'

theorem relaxStepC_eq (n k i j : Nat) (hk : k < n) (hi : i < n) (hj : j < n) (m : Mats) :
    relaxStepC k i j (toMat n m.dist, toMat n m.next) =
      some (toMat n (relaxStep k i j m).dist, toMat n (relaxStep k i j m).next) := by
  by_cases hcond : m.dist i k ≠ INF ∧ m.dist k j ≠ INF ∧
      wrap32 (m.dist i k + m.dist k j) < m.dist i j
  · simp only [relaxStepC, relaxStep, getM_toMat m.dist hi hk, getM_toMat m.dist hk hj,
      getM_toMat m.dist hi hj, getM_toMat m.next hi hk, opt_bind_some, if_pos hcond,
      setM_toMat m.dist (wrap32 (m.dist i k + m.dist k j)) hi hj,
      setM_toMat m.next (m.next i k) hi hj]
    rfl
  · simp only [relaxStepC, relaxStep, getM_toMat m.dist hi hk, getM_toMat m.dist hk hj,
      getM_toMat m.dist hi hj, opt_bind_some, if_neg hcond]
    rfl

theorem relaxInnerC_eq (n k i : Nat) (hk : k < n) (hi : i < n) (m : Mats) :
    relaxInnerC n k i (toMat n m.dist, toMat n m.next) =
      some (toMat n (relaxInner n k i m).dist, toMat n (relaxInner n k i m).next) := by
  have hstep : ∀ (s : MatsC) (t : Mats) (j : Nat), j ∈ List.range n →
      (s.1 = toMat n t.dist ∧ s.2 = toMat n t.next) →
      ∃ s'', relaxStepC k i j s = some s'' ∧
        (s''.1 = toMat n (relaxStep k i j t).dist ∧
          s''.2 = toMat n (relaxStep k i j t).next) := by
    intro s t j hjmem hR
    have hjN : j < n := List.mem_range.mp hjmem
    refine ⟨(toMat n (relaxStep k i j t).dist, toMat n (relaxStep k i j t).next),
      ?_, rfl, rfl⟩
    have hs : s = (toMat n t.dist, toMat n t.next) := Prod.ext hR.1 hR.2
    rw [hs]
    exact relaxStepC_eq n k i j hk hi hjN t
  obtain ⟨c', hc', h1, h2⟩ :=
    foldlM_some_of_rel
      (fun (c : MatsC) (mm : Mats) => c.1 = toMat n mm.dist ∧ c.2 = toMat n mm.next)
      (fun s j => relaxStepC k i j s) (fun s j => relaxStep k i j s)
      (List.range n) (toMat n m.dist, toMat n m.next) m ⟨rfl, rfl⟩ hstep
  have hc : c' = (toMat n (relaxInner n k i m).dist, toMat n (relaxInner n k i m).next) :=
    Prod.ext h1 h2
  exact hc ▸ hc'

theorem relaxKC_eq (n k : Nat) (hk : k < n) (m : Mats) :
    relaxKC n k (toMat n m.dist, toMat n m.next) =
      some (toMat n (relaxK n k m).dist, toMat n (relaxK n k m).next) := by
  have hstep : ∀ (s : MatsC) (t : Mats) (i : Nat), i ∈ List.range n →
      (s.1 = toMat n t.dist ∧ s.2 = toMat n t.next) →
      ∃ s'', relaxInnerC n k i s = some s'' ∧
        (s''.1 = toMat n (relaxInner n k i t).dist ∧
          s''.2 = toMat n (relaxInner n k i t).next) := by
    intro s t i himem hR
    have hiN : i < n := List.mem_range.mp himem
    refine ⟨(toMat n (relaxInner n k i t).dist, toMat n (relaxInner n k i t).next),
      ?_, rfl, rfl⟩
    have hs : s = (toMat n t.dist, toMat n t.next) := Prod.ext hR.1 hR.2
    rw [hs]
    exact relaxInnerC_eq n k i hk hiN t
  obtain ⟨c', hc', h1, h2⟩ :=
    foldlM_some_of_rel
      (fun (c : MatsC) (mm : Mats) => c.1 = toMat n mm.dist ∧ c.2 = toMat n mm.next)
      (fun s i => relaxInnerC n k i s) (fun s i => relaxInner n k i s)
      (List.range n) (toMat n m.dist, toMat n m.next) m ⟨rfl, rfl⟩ hstep
  have hc : c' = (toMat n (relaxK n k m).dist, toMat n (relaxK n k m).next) :=
    Prod.ext h1 h2
  exact hc ▸ hc'

theorem fwLoopC_eq (n : Nat) (m : Mats) :
    fwLoopC n (toMat n m.dist, toMat n m.next) =
      some (toMat n (fwLoop n m).dist, toMat n (fwLoop n m).next) := by
  have hstep : ∀ (s : MatsC) (t : Mats) (k : Nat), k ∈ List.range n →
      (s.1 = toMat n t.dist ∧ s.2 = toMat n t.next) →
      ∃ s'', relaxKC n k s = some s'' ∧
        (s''.1 = toMat n (relaxK n k t).dist ∧ s''.2 = toMat n (relaxK n k t).next) := by
    intro s t k hkmem hR
    have hkN : k < n := List.mem_range.mp hkmem
    refine ⟨(toMat n (relaxK n k t).dist, toMat n (relaxK n k t).next), ?_, rfl, rfl⟩
    have hs : s = (toMat n t.dist, toMat n t.next) := Prod.ext hR.1 hR.2
    rw [hs]
    exact relaxKC_eq n k hkN t
  obtain ⟨c', hc', h1, h2⟩ :=
    foldlM_some_of_rel
      (fun (c : MatsC) (mm : Mats) => c.1 = toMat n mm.dist ∧ c.2 = toMat n mm.next)
      (fun s k => relaxKC n k s) (fun s k => relaxK n k s)
      (List.range n) (toMat n m.dist, toMat n m.next) m ⟨rfl, rfl⟩ hstep
  have hc : c' = (toMat n (fwLoop n m).dist, toMat n (fwLoop n m).next) :=
    Prod.ext h1 h2
  exact hc ▸ hc'

theorem negCycleFlagC_eq (n : Nat) (d : Nat → Nat → Int) :
    negCycleFlagC n (toMat n d) = some (negCycleFlag n d) := by
  have hstep : ∀ (b b' : Bool) (i : Nat), i ∈ List.range n → b = b' →
      ∃ b'', (do
          let x ← getM (toMat n d) i i
          pure (b || decide (x < 0)) : Option Bool) = some b'' ∧
        b'' = (b' || decide (d i i < 0)) := by
    intro b b' i himem hR
    have hiN : i < n := List.mem_range.mp himem
    refine ⟨b' || decide (d i i < 0), ?_, rfl⟩
    rw [hR, getM_toMat d hiN hiN]
    rfl
  obtain ⟨b', hb', hR⟩ :=
    foldlM_some_of_rel (fun (x y : Bool) => x = y)
      (fun b i => do
        let x ← getM (toMat n d) i i
        pure (b || decide (x < 0)))
      (fun b i => b || decide (d i i < 0))
      (List.range n) false false rfl hstep
  subst hR
  exact hb'

/-- C10: on any input whose edge endpoints lie below numVertices, every
matrix access of the engine is in bounds: the fully bounds-checked
embedding returns some result, never none, and that result is exactly the
output of the functional embedding. -/
theorem fw_C10_accesses_in_bounds (n : Nat) (edges : List (Nat × Nat × Int))
    (h : ∀ e ∈ edges, e.1 < n ∧ e.2.1 < n) :
    floydWarshallChecked n edges = some (floydWarshall n edges) := by
  have hinit : initMatsC n = (toMat n initMats.dist, toMat n initMats.next) :=
    initMatsC_eq n
  simp only [floydWarshallChecked, hinit, setDiagC_eq n initMats,
    addEdgesC_eq n edges h (setDiag n initMats),
    fwLoopC_eq n (addEdges edges (setDiag n initMats)),
    negCycleFlagC_eq n, opt_bind_some]
  rfl

/-- C10 witness: the checked engine on a concrete in-range input. -/
theorem fw_C10_witness :
    floydWarshallChecked 2 [(0, 1, 4)] = some (floydWarshall 2 [(0, 1, 4)]) :=
  fw_C10_accesses_in_bounds 2 [(0, 1, 4)] (by decide)

/-- C2: the returned hasNegativeCycle flag is true if and only if some
diagonal entry of the returned distance matrix is negative after the
relaxation loop completes. -/
theorem fw_C2_flag_iff_negative_diagonal (n : Nat) (edges : List (Nat × Nat × Int)) :
    (floydWarshall n edges).2 = true ↔
      ∃ i, i < n ∧ ∃ d, getM (floydWarshall n edges).1.1 i i = some d ∧ d < 0 := by
  show negCycleFlag n (fwLoop n (fwInit n edges)).dist = true ↔ _
  rw [negCycleFlag_iff]
  constructor
  · rintro ⟨i, hi, hneg⟩
    exact ⟨i, hi, _, getM_toMat _ hi hi, hneg⟩
  · rintro ⟨i, hi, d, hget, hneg⟩
    have hget' : getM (toMat n (fwLoop n (fwInit n edges)).dist) i i = some d := hget
    rw [getM_toMat _ hi hi] at hget'
    cases hget'
    exact ⟨i, hi, hneg⟩

/-- C3: the source adds the two finite distances in raw int arithmetic, so
the sum wraps around; on three vertices with edges (0,1,INT_MAX-1) and
(1,2,2) the sum 2147483648 wraps to -2147483648, which is stored in
dist 0 2 although the update should have been skipped; the flag stays
false. -/
theorem fw_C3_wraparound :
    floydWarshall 3 [(0, 1, 2147483646), (1, 2, 2)] =
      (([[0, 2147483646, -2147483648], [2147483647, 0, 2], [2147483647, 2147483647, 0]],
        [[-1, 1, 1], [-1, -1, 2], [-1, -1, -1]]),
       false) := by decide

/-- C4 counterexample: the input with a single positive self-loop edge
(0, 0, 7) is valid (endpoints below numVertices = 1), but the edge
initialisation overwrites the diagonal zero, so the returned dist 0 0 is 7,
violating dist i i ≤ 0. -/
theorem fw_C4_counterexample :
    getM (floydWarshall 1 [(0, 0, 7)]).1.1 0 0 = some 7 ∧ ¬((7 : Int) ≤ 0) := by decide

/-- C4 amended: if no self-loop edge has positive weight, then every
diagonal entry of the returned distance matrix is at most 0. -/
theorem fw_C4_amended (n : Nat) (edges : List (Nat × Nat × Int))
    (h : ∀ u : Nat, ∀ w : Int, (u, u, w) ∈ edges → w ≤ 0) :
    ∀ i, i < n → ∃ d, getM (floydWarshall n edges).1.1 i i = some d ∧ d ≤ 0 := by
  intro i hi
  refine ⟨_, getM_toMat _ hi hi, ?_⟩
  have h1 : (fwLoop n (fwInit n edges)).dist i i ≤ (fwInit n edges).dist i i :=
    fwLoop_dist_le n _ i i
  have h2 : (fwInit n edges).dist i i ≤ 0 := by
    rw [fwInit_dist]
    cases hlw : lastW edges i i with
    | some w => exact h i w (lastW_mem hlw)
    | none =>
        show (if i = i ∧ i < n then (0 : Int) else INF) ≤ 0
        rw [if_pos ⟨rfl, hi⟩]
  exact le_trans h1 h2

/-- C4 witness: the amended claim applied to the one-vertex edgeless
graph. -/
theorem fw_C4_witness :
    ∃ d, getM (floydWarshall 1 []).1.1 0 0 = some d ∧ d ≤ 0 :=
  fw_C4_amended 1 [] (fun _ _ h => absurd h (List.not_mem_nil _)) 0 (by decide)

/-- C6: the source contains no validation of numVertices; a negative count
flows into the vector size constructor through the int to size conversion,
becoming a request for 18446744073709551615 rows rather than a dedicated
InvalidVertexCount rejection. -/
theorem fw_C6_no_rejection : cppSizeT (-1) = 18446744073709551615 := by decide

/-- C7: when a later input edge shares the (source, destination) pair of
earlier ones, the initialisation leaves its weight in dist u v and its
destination in next u v, overwriting anything earlier; no minimum is taken. -/
theorem fw_C7_last_edge_wins (n : Nat) (es1 es2 : List (Nat × Nat × Int)) (u v : Nat)
    (w : Int) (h : ∀ e ∈ es2, ¬(e.1 = u ∧ e.2.1 = v)) :
    (fwInit n (es1 ++ (u, v, w) :: es2)).dist u v = w ∧
      (fwInit n (es1 ++ (u, v, w) :: es2)).next u v = (v : Int) := by
  constructor
  · rw [fwInit_dist, lastW_append_last h]
  · rw [fwInit_next, lastW_append_last h]

/-- C7 witness: with duplicate edges (0,1,3) then (0,1,5) the initialised
dist 0 1 is 5, the weight of the later edge, not the minimum 3. -/
theorem fw_C7_witness :
    (fwInit 2 [(0, 1, 3), (0, 1, 5)]).dist 0 1 = 5 ∧
      (fwInit 2 [(0, 1, 3), (0, 1, 5)]).next 0 1 = 1 :=
  fw_C7_last_edge_wins 2 [(0, 1, 3)] [] 0 1 5 (fun _ he => absurd he (List.not_mem_nil _))

/-- C8: with numVertices = 0 and no edges the engine returns two empty
matrices and a false negative-cycle flag. -/
theorem fw_C8_zero_vertices : floydWarshall 0 [] = (([], []), false) := by decide

/-- C9: scenario A of the spec, the 5-vertex test graph of the source:
dist row 0 is [0, 8, 9, 5, 7], there is no negative cycle, and
next 0 1 = 3. -/
theorem fw_C9_scenarioA :
    (floydWarshall 5 [(0, 1, 10), (0, 3, 5), (1, 3, 2), (1, 2, 1), (2, 4, 4), (3, 1, 3),
        (3, 2, 9), (3, 4, 2), (4, 2, 6)]).1.1.get? 0 = some [0, 8, 9, 5, 7] ∧
      (floydWarshall 5 [(0, 1, 10), (0, 3, 5), (1, 3, 2), (1, 2, 1), (2, 4, 4), (3, 1, 3),
        (3, 2, 9), (3, 4, 2), (4, 2, 6)]).2 = false ∧
      getM (floydWarshall 5 [(0, 1, 10), (0, 3, 5), (1, 3, 2), (1, 2, 1), (2, 4, 4), (3, 1, 3),
        (3, 2, 9), (3, 4, 2), (4, 2, 6)]).1.2 0 1 = some 3 := by decide

/-! Pointwise description of one whole stage k of the relaxation.  The key
facts are that during stage k the row k, the column k and the diagonal cell
(k, k) never change (because dist k k = 0 and all entries are in int range),
so the in-place update of the source is equivalent to relaxing every cell
against the state at the start of the stage. -/

theorem relaxStep_preserve (k i j : Nat) (m' : Mats) {a b : Nat} (h : ¬(a = i ∧ b = j)) :
    (relaxStep k i j m').dist a b = m'.dist a b ∧
      (relaxStep k i j m').next a b = m'.next a b := by
  by_cases hc : m'.dist i k ≠ INF ∧ m'.dist k j ≠ INF ∧
      wrap32 (m'.dist i k + m'.dist k j) < m'.dist i j
  · unfold relaxStep
    rw [if_pos hc]
    exact ⟨update2_other _ _ _ _ h, update2_other _ _ _ _ h⟩
  · unfold relaxStep
    rw [if_neg hc]
    exact ⟨rfl, rfl⟩

theorem relaxStep_at (k i j : Nat) (m' : Mats) :
    ((relaxStep k i j m').dist i j =
      if m'.dist i k ≠ INF ∧ m'.dist k j ≠ INF ∧
          wrap32 (m'.dist i k + m'.dist k j) < m'.dist i j
      then wrap32 (m'.dist i k + m'.dist k j) else m'.dist i j) ∧
    ((relaxStep k i j m').next i j =
      if m'.dist i k ≠ INF ∧ m'.dist k j ≠ INF ∧
          wrap32 (m'.dist i k + m'.dist k j) < m'.dist i j
      then m'.next i k else m'.next i j) := by
  by_cases hc : m'.dist i k ≠ INF ∧ m'.dist k j ≠ INF ∧
      wrap32 (m'.dist i k + m'.dist k j) < m'.dist i j
  · unfold relaxStep
    rw [if_pos hc, if_pos hc, if_pos hc]
    exact ⟨update2_self _ _ _ _, update2_self _ _ _ _⟩
  · unfold relaxStep
    rw [if_neg hc, if_neg hc, if_neg hc]
    exact ⟨rfl, rfl⟩

theorem relaxStep_col_k (k i : Nat) (m' : Mats) (h0 : m'.dist k k = 0)
    (hr : -2147483648 ≤ m'.dist i k ∧ m'.dist i k ≤ INF) :
    relaxStep k i k m' = m' := by
  unfold relaxStep
  rw [if_neg]
  rintro ⟨-, -, h3⟩
  rw [h0, add_zero, wrap32_eq_self hr.1 hr.2] at h3
  exact lt_irrefl _ h3

theorem relaxStep_row_k (k j : Nat) (m' : Mats) (h0 : m'.dist k k = 0)
    (hr : -2147483648 ≤ m'.dist k j ∧ m'.dist k j ≤ INF) :
    relaxStep k k j m' = m' := by
  unfold relaxStep
  rw [if_neg]
  rintro ⟨-, -, h3⟩
  rw [h0, zero_add, wrap32_eq_self hr.1 hr.2] at h3
  exact lt_irrefl _ h3

theorem relaxInner_fold_row (n k : Nat) (m : Mats)
    (hrange : ∀ a b, -2147483648 ≤ m.dist a b ∧ m.dist a b ≤ INF)
    (hkk : m.dist k k = 0) (i : Nat) (hik : i ≠ k) :
    ∀ (js : List Nat), js.Nodup →
      ∀ S : Mats,
        (∀ t, t ∈ js → S.dist i t = m.dist i t ∧ S.next i t = m.next i t) →
        (∀ t, S.dist k t = m.dist k t) →
        (S.dist i k = m.dist i k ∧ S.next i k = m.next i k) →
        ∀ a t,
          (¬(a = i ∧ t ∈ js) →
            (js.foldl (fun s j => relaxStep k i j s) S).dist a t = S.dist a t ∧
              (js.foldl (fun s j => relaxStep k i j s) S).next a t = S.next a t) ∧
          (a = i → t ∈ js →
            ((js.foldl (fun s j => relaxStep k i j s) S).dist i t =
              if m.dist i k ≠ INF ∧ m.dist k t ≠ INF ∧
                  wrap32 (m.dist i k + m.dist k t) < m.dist i t
              then wrap32 (m.dist i k + m.dist k t) else m.dist i t) ∧
            ((js.foldl (fun s j => relaxStep k i j s) S).next i t =
              if m.dist i k ≠ INF ∧ m.dist k t ≠ INF ∧
                  wrap32 (m.dist i k + m.dist k t) < m.dist i t
              then m.next i k else m.next i t)) := by
  intro js
  induction js with
  | nil =>
      intro _ S h1 h2 h3 a t
      exact ⟨fun _ => ⟨rfl, rfl⟩, fun _ ht => absurd ht (List.not_mem_nil t)⟩
  | cons j js ih =>
      intro hnd S h1 h2 h3 a t
      obtain ⟨hjmem, hnd'⟩ := List.nodup_cons.mp hnd
      by_cases hjk : j = k
      · have hkj : k = j := hjk.symm
        subst hkj
        have hS1 : relaxStep k i k S = S :=
          relaxStep_col_k k i S (by rw [h2 k]; exact hkk) (by rw [h3.1]; exact hrange i k)
        have hfold : ((k :: js).foldl (fun s j => relaxStep k i j s) S) =
            js.foldl (fun s j => relaxStep k i j s) S := by
          rw [List.foldl_cons, hS1]
        have IH := ih hnd' S (fun t ht => h1 t (List.mem_cons_of_mem _ ht)) h2 h3 a t
        constructor
        · intro hnot
          rw [hfold]
          exact IH.1 (fun ⟨hai, htm⟩ => hnot ⟨hai, List.mem_cons_of_mem _ htm⟩)
        · intro hai htm
          have hai' : i = a := hai.symm
          subst hai'
          rcases List.mem_cons.mp htm with htk | htm'
          · have htk' : k = t := htk.symm
            subst htk'
            rw [hfold]
            have hcnd : ¬(m.dist i k ≠ INF ∧ m.dist k k ≠ INF ∧
                wrap32 (m.dist i k + m.dist k k) < m.dist i k) := by
              rintro ⟨-, -, h3'⟩
              rw [hkk, add_zero, wrap32_eq_self (hrange i k).1 (hrange i k).2] at h3'
              exact lt_irrefl _ h3'
            rw [if_neg hcnd, if_neg hcnd]
            have hIH := IH.1 (fun hh => hjmem hh.2)
            constructor
            · rw [hIH.1]
              exact h3.1
            · rw [hIH.2]
              exact h3.2
          · rw [hfold]
            exact IH.2 rfl htm'
      · have hpre1 : ∀ t, t ∈ js → (relaxStep k i j S).dist i t = m.dist i t ∧
            (relaxStep k i j S).next i t = m.next i t := by
          intro t ht
          have hne : ¬(i = i ∧ t = j) := fun hh => hjmem (hh.2 ▸ ht)
          have hp := relaxStep_preserve k i j S hne
          rw [hp.1, hp.2]
          exact h1 t (List.mem_cons_of_mem _ ht)
        have hpre2 : ∀ t, (relaxStep k i j S).dist k t = m.dist k t := by
          intro t
          have hne : ¬(k = i ∧ t = j) := fun hh => hik hh.1.symm
          rw [(relaxStep_preserve k i j S hne).1]
          exact h2 t
        have hpre3 : (relaxStep k i j S).dist i k = m.dist i k ∧
            (relaxStep k i j S).next i k = m.next i k := by
          have hne : ¬(i = i ∧ k = j) := fun hh => hjk hh.2.symm
          have hp := relaxStep_preserve k i j S hne
          rw [hp.1, hp.2]
          exact h3
        have IH := ih hnd' (relaxStep k i j S) hpre1 hpre2 hpre3 a t
        have hfold : ((j :: js).foldl (fun s j => relaxStep k i j s) S) =
            js.foldl (fun s j => relaxStep k i j s) (relaxStep k i j S) := by
          rw [List.foldl_cons]
        constructor
        · intro hnot
          rw [hfold]
          have hnot1 : ¬(a = i ∧ t ∈ js) :=
            fun hh => hnot ⟨hh.1, List.mem_cons_of_mem _ hh.2⟩
          have hnot2 : ¬(a = i ∧ t = j) :=
            fun hh => hnot ⟨hh.1, hh.2 ▸ List.mem_cons_self j js⟩
          have hp := relaxStep_preserve k i j S hnot2
          rw [(IH.1 hnot1).1, (IH.1 hnot1).2, hp.1, hp.2]
          exact ⟨rfl, rfl⟩
        · intro hai htm
          have hai' : i = a := hai.symm
          subst hai'
          rcases List.mem_cons.mp htm with htj | htm'
          · subst htj
            rw [hfold]
            have hnot1 : ¬(i = i ∧ t ∈ js) := fun hh => hjmem hh.2
            have hIH := IH.1 hnot1
            have hat := relaxStep_at k i t S
            have h1j := h1 t (List.mem_cons_self t js)
            constructor
            · rw [hIH.1, hat.1, h3.1, h2 t, h1j.1]
            · rw [hIH.2, hat.2, h3.1, h2 t, h1j.1, h3.2, h1j.2]
          · rw [hfold]
            exact IH.2 rfl htm'

theorem relaxInner_fold_row_k (k : Nat) (m : Mats)
    (hrange : ∀ a b, -2147483648 ≤ m.dist a b ∧ m.dist a b ≤ INF)
    (hkk : m.dist k k = 0) :
    ∀ (js : List Nat), ∀ S : Mats, (∀ t, S.dist k t = m.dist k t) →
      js.foldl (fun s j => relaxStep k k j s) S = S := by
  intro js
  induction js with
  | nil => intro S _; rfl
  | cons j js ih =>
      intro S h
      have hS1 : relaxStep k k j S = S :=
        relaxStep_row_k k j S (by rw [h k]; exact hkk) (by rw [h j]; exact hrange k j)
      rw [List.foldl_cons, hS1]
      exact ih S h

theorem relaxInner_desc (n k : Nat) (m : Mats)
    (hrange : ∀ a b, -2147483648 ≤ m.dist a b ∧ m.dist a b ≤ INF)
    (hkk : m.dist k k = 0) (i : Nat) (hik : i ≠ k) (S : Mats)
    (hS1 : ∀ t, S.dist i t = m.dist i t ∧ S.next i t = m.next i t)
    (hS2 : ∀ t, S.dist k t = m.dist k t) :
    ∀ a t,
      (a ≠ i → (relaxInner n k i S).dist a t = S.dist a t ∧
        (relaxInner n k i S).next a t = S.next a t) ∧
      ((relaxInner n k i S).dist i t =
        if t < n ∧ m.dist i k ≠ INF ∧ m.dist k t ≠ INF ∧
            wrap32 (m.dist i k + m.dist k t) < m.dist i t
        then wrap32 (m.dist i k + m.dist k t) else m.dist i t) ∧
      ((relaxInner n k i S).next i t =
        if t < n ∧ m.dist i k ≠ INF ∧ m.dist k t ≠ INF ∧
            wrap32 (m.dist i k + m.dist k t) < m.dist i t
        then m.next i k else m.next i t) := by
  intro a t
  have H := relaxInner_fold_row n k m hrange hkk i hik (List.range n)
    (List.nodup_range n) S (fun t _ => hS1 t) hS2 ⟨(hS1 k).1, (hS1 k).2⟩
  refine ⟨?_, ?_, ?_⟩
  · intro hai
    exact ⟨((H a t).1 (fun hh => hai hh.1)).1, ((H a t).1 (fun hh => hai hh.1)).2⟩
  · by_cases htn : t < n
    · have hf := ((H i t).2 rfl (List.mem_range.mpr htn)).1
      by_cases hc : m.dist i k ≠ INF ∧ m.dist k t ≠ INF ∧
          wrap32 (m.dist i k + m.dist k t) < m.dist i t
      · rw [if_pos ⟨htn, hc⟩]
        rw [if_pos hc] at hf
        exact hf
      · rw [if_neg (fun hh => hc hh.2)]
        rw [if_neg hc] at hf
        exact hf
    · rw [if_neg (fun hh => htn hh.1)]
      have hu := ((H i t).1 (fun hh => htn (List.mem_range.mp hh.2))).1
      exact hu.trans (hS1 t).1
  · by_cases htn : t < n
    · have hf := ((H i t).2 rfl (List.mem_range.mpr htn)).2
      by_cases hc : m.dist i k ≠ INF ∧ m.dist k t ≠ INF ∧
          wrap32 (m.dist i k + m.dist k t) < m.dist i t
      · rw [if_pos ⟨htn, hc⟩]
        rw [if_pos hc] at hf
        exact hf
      · rw [if_neg (fun hh => hc hh.2)]
        rw [if_neg hc] at hf
        exact hf
    · rw [if_neg (fun hh => htn hh.1)]
      have hu := ((H i t).1 (fun hh => htn (List.mem_range.mp hh.2))).2
      exact hu.trans (hS1 t).2

theorem relaxK_fold (n k : Nat) (m : Mats)
    (hrange : ∀ a b, -2147483648 ≤ m.dist a b ∧ m.dist a b ≤ INF)
    (hkk : m.dist k k = 0) :
    ∀ (is : List Nat), is.Nodup →
      ∀ S : Mats,
        (∀ a t, a ∈ is → S.dist a t = m.dist a t ∧ S.next a t = m.next a t) →
        (∀ t, S.dist k t = m.dist k t) →
        ∀ a t,
          (a ∉ is →
            (is.foldl (fun s i => relaxInner n k i s) S).dist a t = S.dist a t ∧
              (is.foldl (fun s i => relaxInner n k i s) S).next a t = S.next a t) ∧
          (a ∈ is →
            ((is.foldl (fun s i => relaxInner n k i s) S).dist a t =
              if t < n ∧ m.dist a k ≠ INF ∧ m.dist k t ≠ INF ∧
                  wrap32 (m.dist a k + m.dist k t) < m.dist a t
              then wrap32 (m.dist a k + m.dist k t) else m.dist a t) ∧
            ((is.foldl (fun s i => relaxInner n k i s) S).next a t =
              if t < n ∧ m.dist a k ≠ INF ∧ m.dist k t ≠ INF ∧
                  wrap32 (m.dist a k + m.dist k t) < m.dist a t
              then m.next a k else m.next a t)) := by
  intro is
  induction is with
  | nil =>
      intro _ S h1 h2 a t
      exact ⟨fun _ => ⟨rfl, rfl⟩, fun hmem => absurd hmem (List.not_mem_nil a)⟩
  | cons i is ih =>
      intro hnd S h1 h2 a t
      obtain ⟨himem, hnd'⟩ := List.nodup_cons.mp hnd
      by_cases hik : i = k
      · have hki : k = i := hik.symm
        subst hki
        have hS1 : relaxInner n k k S = S :=
          relaxInner_fold_row_k k m hrange hkk (List.range n) S h2
        have hfold : ((k :: is).foldl (fun s i => relaxInner n k i s) S) =
            is.foldl (fun s i => relaxInner n k i s) S := by
          rw [List.foldl_cons, hS1]
        have IH := ih hnd' S (fun a t ha => h1 a t (List.mem_cons_of_mem _ ha)) h2 a t
        constructor
        · intro hnot
          rw [hfold]
          exact IH.1 (fun ha => hnot (List.mem_cons_of_mem _ ha))
        · intro hmem
          rcases List.mem_cons.mp hmem with hak | hmem'
          · have hak' : k = a := hak.symm
            subst hak'
            rw [hfold]
            have hcnd : ¬(t < n ∧ m.dist k k ≠ INF ∧ m.dist k t ≠ INF ∧
                wrap32 (m.dist k k + m.dist k t) < m.dist k t) := by
              rintro ⟨-, -, -, h4⟩
              rw [hkk, zero_add, wrap32_eq_self (hrange k t).1 (hrange k t).2] at h4
              exact lt_irrefl _ h4
            rw [if_neg hcnd, if_neg hcnd]
            have hIH := IH.1 himem
            have h1k := h1 k t (List.mem_cons_self k is)
            constructor
            · rw [hIH.1]
              exact h1k.1
            · rw [hIH.2]
              exact h1k.2
          · rw [hfold]
            exact IH.2 hmem'
      · have hdesc := relaxInner_desc n k m hrange hkk i hik S
          (fun t => h1 i t (List.mem_cons_self i is)) h2
        have h1' : ∀ a t, a ∈ is →
            (relaxInner n k i S).dist a t = m.dist a t ∧
              (relaxInner n k i S).next a t = m.next a t := by
          intro a t ha
          have hai : a ≠ i := fun hh => himem (hh ▸ ha)
          have hu := (hdesc a t).1 hai
          exact ⟨hu.1.trans (h1 a t (List.mem_cons_of_mem _ ha)).1,
            hu.2.trans (h1 a t (List.mem_cons_of_mem _ ha)).2⟩
        have h2' : ∀ t, (relaxInner n k i S).dist k t = m.dist k t := by
          intro t
          exact ((hdesc k t).1 (fun hh => hik hh.symm)).1.trans (h2 t)
        have IH := ih hnd' (relaxInner n k i S) h1' h2' a t
        have hfold : ((i :: is).foldl (fun s i => relaxInner n k i s) S) =
            is.foldl (fun s i => relaxInner n k i s) (relaxInner n k i S) := by
          rw [List.foldl_cons]
        constructor
        · intro hnot
          have hai : a ≠ i := fun hh => hnot (hh ▸ List.mem_cons_self i is)
          have hnotis : a ∉ is := fun hh => hnot (List.mem_cons_of_mem _ hh)
          rw [hfold]
          have hu := (hdesc a t).1 hai
          rw [(IH.1 hnotis).1, (IH.1 hnotis).2, hu.1, hu.2]
          exact ⟨rfl, rfl⟩
        · intro hmem
          rcases List.mem_cons.mp hmem with hai | hmem'
          · have hai' : i = a := hai.symm
            subst hai'
            rw [hfold]
            have hrow := IH.1 himem
            constructor
            · rw [hrow.1, (hdesc i t).2.1]
            · rw [hrow.2, (hdesc i t).2.2]
          · rw [hfold]
            exact IH.2 hmem'

theorem relaxK_pointwise (n k : Nat) (m : Mats)
    (hrange : ∀ a b, -2147483648 ≤ m.dist a b ∧ m.dist a b ≤ INF)
    (hkk : m.dist k k = 0) (a b : Nat) :
    ((relaxK n k m).dist a b =
      if a < n ∧ b < n ∧ m.dist a k ≠ INF ∧ m.dist k b ≠ INF ∧
          wrap32 (m.dist a k + m.dist k b) < m.dist a b
      then wrap32 (m.dist a k + m.dist k b) else m.dist a b) ∧
    ((relaxK n k m).next a b =
      if a < n ∧ b < n ∧ m.dist a k ≠ INF ∧ m.dist k b ≠ INF ∧
          wrap32 (m.dist a k + m.dist k b) < m.dist a b
      then m.next a k else m.next a b) := by
  have H := relaxK_fold n k m hrange hkk (List.range n) (List.nodup_range n) m
    (fun _ _ _ => ⟨rfl, rfl⟩) (fun _ => rfl) a b
  unfold relaxK
  by_cases ha : a < n
  · have hf := H.2 (List.mem_range.mpr ha)
    constructor
    · rw [hf.1]
      by_cases hc : b < n ∧ m.dist a k ≠ INF ∧ m.dist k b ≠ INF ∧
          wrap32 (m.dist a k + m.dist k b) < m.dist a b
      · rw [if_pos hc, if_pos ⟨ha, hc⟩]
      · rw [if_neg hc, if_neg (fun hh => hc hh.2)]
    · rw [hf.2]
      by_cases hc : b < n ∧ m.dist a k ≠ INF ∧ m.dist k b ≠ INF ∧
          wrap32 (m.dist a k + m.dist k b) < m.dist a b
      · rw [if_pos hc, if_pos ⟨ha, hc⟩]
      · rw [if_neg hc, if_neg (fun hh => hc hh.2)]
  · have hu := H.1 (fun hh => ha (List.mem_range.mp hh))
    have hcnd : ¬(a < n ∧ b < n ∧ m.dist a k ≠ INF ∧ m.dist k b ≠ INF ∧
        wrap32 (m.dist a k + m.dist k b) < m.dist a b) := fun hh => ha hh.1
    constructor
    · rw [hu.1, if_neg hcnd]
    · rw [hu.2, if_neg hcnd]

/-! Range and diagonal invariants along the stages. -/

theorem relaxStep_range (k i j : Nat) (m' : Mats)
    (h : ∀ a b, -2147483648 ≤ m'.dist a b ∧ m'.dist a b ≤ INF) :
    ∀ a b, -2147483648 ≤ (relaxStep k i j m').dist a b ∧
      (relaxStep k i j m').dist a b ≤ INF := by
  intro a b
  by_cases hab : a = i ∧ b = j
  · by_cases hc : m'.dist i k ≠ INF ∧ m'.dist k j ≠ INF ∧
        wrap32 (m'.dist i k + m'.dist k j) < m'.dist i j
    · have heq : (relaxStep k i j m').dist a b = wrap32 (m'.dist i k + m'.dist k j) := by
        unfold relaxStep
        rw [if_pos hc]
        show update2 m'.dist i j _ a b = _
        rw [hab.1, hab.2]
        exact update2_self _ _ _ _
      rw [heq]
      exact ⟨wrap32_lb _, wrap32_ub _⟩
    · have heq : relaxStep k i j m' = m' := by
        unfold relaxStep
        rw [if_neg hc]
      rw [heq]
      exact h a b
  · rw [(relaxStep_preserve k i j m' hab).1]
    exact h a b

theorem foldl_range {α : Type} (g : Mats → α → Mats)
    (hg : ∀ s x, (∀ a b, -2147483648 ≤ s.dist a b ∧ s.dist a b ≤ INF) →
      ∀ a b, -2147483648 ≤ (g s x).dist a b ∧ (g s x).dist a b ≤ INF) :
    ∀ (l : List α) (S : Mats),
      (∀ a b, -2147483648 ≤ S.dist a b ∧ S.dist a b ≤ INF) →
      ∀ a b, -2147483648 ≤ (l.foldl g S).dist a b ∧ (l.foldl g S).dist a b ≤ INF := by
  intro l
  induction l with
  | nil => intro S h a b; exact h a b
  | cons x l ih =>
      intro S h a b
      rw [List.foldl_cons]
      exact ih (g S x) (hg S x h) a b

theorem relaxK_range (n k : Nat) (m : Mats)
    (h : ∀ a b, -2147483648 ≤ m.dist a b ∧ m.dist a b ≤ INF) :
    ∀ a b, -2147483648 ≤ (relaxK n k m).dist a b ∧ (relaxK n k m).dist a b ≤ INF :=
  foldl_range _
    (fun s i hs => foldl_range _ (fun s' j hs' => relaxStep_range k i j s' hs')
      (List.range n) s hs)
    (List.range n) m h

theorem fwInit_range (n : Nat) (edges : List (Nat × Nat × Int))
    (hw : ∀ e ∈ edges, -2147483648 ≤ e.2.2 ∧ e.2.2 ≤ INF) :
    ∀ a b, -2147483648 ≤ (fwInit n edges).dist a b ∧ (fwInit n edges).dist a b ≤ INF := by
  intro a b
  rw [fwInit_dist]
  cases hlw : lastW edges a b with
  | some w => exact hw _ (lastW_mem hlw)
  | none =>
      show -2147483648 ≤ (if a = b ∧ a < n then (0 : Int) else INF) ∧
        (if a = b ∧ a < n then (0 : Int) else INF) ≤ INF
      by_cases hd : a = b ∧ a < n
      · rw [if_pos hd]
        exact ⟨by norm_num, by rw [INF_eq]; norm_num⟩
      · rw [if_neg hd]
        exact ⟨by rw [INF_eq]; norm_num, le_refl _⟩

theorem runStages_range (n : Nat) (edges : List (Nat × Nat × Int))
    (hw : ∀ e ∈ edges, -2147483648 ≤ e.2.2 ∧ e.2.2 ≤ INF) :
    ∀ s a b, -2147483648 ≤ (runStages n edges s).dist a b ∧
      (runStages n edges s).dist a b ≤ INF := by
  intro s
  induction s with
  | zero => exact fwInit_range n edges hw
  | succ s ih =>
      intro a b
      rw [runStages_succ]
      exact relaxK_range n s _ ih a b

theorem fwInit_diag_zero (n : Nat) (edges : List (Nat × Nat × Int))
    (hself : ∀ e ∈ edges, e.1 ≠ e.2.1) {i : Nat} (hi : i < n) :
    (fwInit n edges).dist i i = 0 := by
  rw [fwInit_dist]
  have hnone : lastW edges i i = none :=
    lastW_eq_none (fun e he hh => hself e he (hh.1.trans hh.2.symm))
  rw [hnone]
  show (if i = i ∧ i < n then (0 : Int) else INF) = 0
  rw [if_pos ⟨rfl, hi⟩]

theorem runStages_diag_zero (n : Nat) (edges : List (Nat × Nat × Int))
    (hself : ∀ e ∈ edges, e.1 ≠ e.2.1)
    (hflag : negCycleFlag n (runStages n edges n).dist = false) :
    ∀ s, s ≤ n → ∀ i, i < n → (runStages n edges s).dist i i = 0 := by
  intro s hs i hi
  have h0 : (runStages n edges 0).dist i i = 0 := fwInit_diag_zero n edges hself hi
  have hup : (runStages n edges s).dist i i ≤ 0 := by
    calc (runStages n edges s).dist i i
        ≤ (runStages n edges 0).dist i i := runStages_dist_le n edges (Nat.zero_le s) i i
      _ = 0 := h0
  have hdn : (0 : Int) ≤ (runStages n edges n).dist i i := by
    by_contra hneg
    push_neg at hneg
    have htrue : negCycleFlag n (runStages n edges n).dist = true :=
      (negCycleFlag_iff _ _).mpr ⟨i, hi, hneg⟩
    rw [hflag] at htrue
    cases htrue
  have hlow : (0 : Int) ≤ (runStages n edges s).dist i i :=
    le_trans hdn (runStages_dist_le n edges hs i i)
  exact le_antisymm hup hlow

/-! The correspondence between the next matrix and finiteness of dist. -/

theorem fw_next_dist_invariant (n : Nat) (edges : List (Nat × Nat × Int))
    (hw : ∀ e ∈ edges, -2147483648 ≤ e.2.2 ∧ e.2.2 < INF)
    (hself : ∀ e ∈ edges, e.1 ≠ e.2.1)
    (hflag : negCycleFlag n (runStages n edges n).dist = false) :
    ∀ s, s ≤ n → ∀ i j, i < n → j < n →
      ((runStages n edges s).next i j ≠ -1 ↔
        ((runStages n edges s).dist i j ≠ INF ∧ i ≠ j)) := by
  intro s
  induction s with
  | zero =>
      intro _ i j hi hj
      have e0 : runStages n edges 0 = fwInit n edges := rfl
      rw [e0, fwInit_next, fwInit_dist]
      cases hlw : lastW edges i j with
      | some w =>
          show ((j : Int) ≠ -1 ↔ (w ≠ INF ∧ i ≠ j))
          constructor
          · intro _
            refine ⟨ne_of_lt (hw _ (lastW_mem hlw)).2, ?_⟩
            intro hij
            exact hself _ (lastW_mem hlw) (by exact hij)
          · intro _
            have hj0 : (0 : Int) ≤ (j : Int) := Int.natCast_nonneg j
            omega
      | none =>
          show ((-1 : Int) ≠ -1 ↔ ((if i = j ∧ i < n then (0 : Int) else INF) ≠ INF ∧ i ≠ j))
          constructor
          · intro h
            exact absurd rfl h
          · rintro ⟨hd, hij⟩
            rw [if_neg (fun hh => hij hh.1)] at hd
            exact absurd rfl hd
  | succ s ih =>
      intro hs i j hi hj
      have hsn : s < n := hs
      have hsle : s ≤ n := Nat.le_of_lt hsn
      have hrangeS := runStages_range n edges
        (fun e he => ⟨(hw e he).1, le_of_lt (hw e he).2⟩) s
      have hkkS : (runStages n edges s).dist s s = 0 :=
        runStages_diag_zero n edges hself hflag s hsle s hsn
      have hpw := relaxK_pointwise n s (runStages n edges s) hrangeS hkkS i j
      have hstep : runStages n edges (s + 1) = relaxK n s (runStages n edges s) :=
        runStages_succ n edges s
      rw [hstep]
      have hd := hpw.1
      have hn := hpw.2
      by_cases hc : i < n ∧ j < n ∧ (runStages n edges s).dist i s ≠ INF ∧
          (runStages n edges s).dist s j ≠ INF ∧
          wrap32 ((runStages n edges s).dist i s + (runStages n edges s).dist s j) <
            (runStages n edges s).dist i j
      · rw [if_pos hc] at hd hn
        obtain ⟨-, -, his, hsj, hlt⟩ := hc
        have hins : i ≠ s := by
          intro hh
          rw [hh, hkkS, zero_add,
            wrap32_eq_self (hrangeS s j).1 (hrangeS s j).2] at hlt
          exact lt_irrefl _ hlt
        have hjns : j ≠ s := by
          intro hh
          rw [hh, hkkS, add_zero,
            wrap32_eq_self (hrangeS i s).1 (hrangeS i s).2] at hlt
          exact lt_irrefl _ hlt
        have hij : i ≠ j := by
          intro hh
          have hdiag1 : (runStages n edges (s + 1)).dist i i = 0 :=
            runStages_diag_zero n edges hself hflag (s + 1) hs i hi
          have hdiag0 : (runStages n edges s).dist i i = 0 :=
            runStages_diag_zero n edges hself hflag s hsle i hi
          rw [hstep] at hdiag1
          rw [← hh] at hd
          rw [hd] at hdiag1
          rw [← hh, hdiag0] at hlt
          rw [hdiag1] at hlt
          exact lt_irrefl _ hlt
        rw [hd, hn]
        have hprev := ih hsle i s hi hsn
        have hnis : (runStages n edges s).next i s ≠ -1 := hprev.mpr ⟨his, hins⟩
        have hdINF : wrap32 ((runStages n edges s).dist i s +
            (runStages n edges s).dist s j) ≠ INF :=
          ne_of_lt (lt_of_lt_of_le hlt (hrangeS i j).2)
        constructor
        · intro _
          exact ⟨hdINF, hij⟩
        · intro _
          exact hnis
      · rw [if_neg hc] at hd hn
        rw [hd, hn]
        exact ih hsle i j hi hj

/-- C5 counterexample: the valid one-vertex input with the self-loop edge
(0, 0, 3) produces next 0 0 = 0, which is not the none sentinel although
i = j, falsifying the claimed equivalence. -/
theorem fw_C5_counterexample :
    floydWarshall 1 [(0, 0, 3)] = (([[3]], [[0]]), false) ∧
      ¬(((0 : Int) ≠ -1) ↔ ((3 : Int) ≠ INF ∧ (0 : Nat) ≠ 0)) := by decide

/-- C5 amended: for valid inputs without self-loop edges and without edges
of weight INT_MAX, if the returned negative-cycle flag is false then
next i j is not the sentinel -1 exactly when dist i j is finite and
i is different from j. -/
theorem fw_C5_amended (n : Nat) (edges : List (Nat × Nat × Int))
    (hin : ∀ e ∈ edges, e.1 < n ∧ e.2.1 < n)
    (hw : ∀ e ∈ edges, -2147483648 ≤ e.2.2 ∧ e.2.2 < INF)
    (hself : ∀ e ∈ edges, e.1 ≠ e.2.1)
    (hflag : (floydWarshall n edges).2 = false) :
    ∀ i j, i < n → j < n →
      ∃ d nx, getM (floydWarshall n edges).1.1 i j = some d ∧
        getM (floydWarshall n edges).1.2 i j = some nx ∧
        (nx ≠ -1 ↔ (d ≠ INF ∧ i ≠ j)) := by
  intro i j hi hj
  have hflag' : negCycleFlag n (runStages n edges n).dist = false := hflag
  have H := fw_next_dist_invariant n edges hw hself hflag' n (le_refl n) i j hi hj
  exact ⟨_, _, getM_toMat _ hi hj, getM_toMat _ hi hj, H⟩

/-- C5 witness: the amended claim applied to a two-vertex graph with one
edge. -/
theorem fw_C5_witness :
    ∃ d nx, getM (floydWarshall 2 [(0, 1, 5)]).1.1 0 1 = some d ∧
      getM (floydWarshall 2 [(0, 1, 5)]).1.2 0 1 = some nx ∧
      (nx ≠ -1 ↔ (d ≠ INF ∧ (0 : Nat) ≠ 1)) :=
  fw_C5_amended 2 [(0, 1, 5)] (by decide) (by decide) (by decide) (by decide)
    0 1 (by decide) (by decide)

/-! Walk theory over the effective weight function. -/

theorem hasWalk_trivial (W : Nat → Nat → Option Int) (i : Nat) : HasWalk W i i [] 0 :=
  Or.inl ⟨rfl, rfl, rfl⟩

theorem chain_split (W : Nat → Nat → Option Int) :
    ∀ (xs : List Nat) (a b : Nat) (ys : List Nat) (c : Int),
      IsChain W a (xs ++ b :: ys) c →
      ∃ c1 c2, IsChain W a (xs ++ [b]) c1 ∧ IsChain W b ys c2 ∧ c = c1 + c2 := by
  intro xs
  induction xs with
  | nil =>
      intro a b ys c h
      rw [List.nil_append] at h
      cases h with
      | cons hw h' =>
          rw [List.nil_append]
          exact ⟨_, _, IsChain.cons hw (IsChain.nil b), h', by ring⟩
  | cons x xs ih =>
      intro a b ys c h
      rw [List.cons_append] at h
      cases h with
      | cons hw h' =>
          obtain ⟨c1, c2, hch1, hch2, hc⟩ := ih _ b ys _ h'
          refine ⟨_, c2, IsChain.cons hw hch1, hch2, ?_⟩
          rw [hc]
          ring

theorem chain_glue (W : Nat → Nat → Option Int) :
    ∀ (xs : List Nat) (a b : Nat) (c1 : Int) (ys : List Nat) (c2 : Int),
      IsChain W a (xs ++ [b]) c1 → IsChain W b ys c2 →
      IsChain W a (xs ++ b :: ys) (c1 + c2) := by
  intro xs
  induction xs with
  | nil =>
      intro a b c1 ys c2 h1 h2
      rw [List.nil_append] at h1 ⊢
      cases h1 with
      | cons hw h' =>
          cases h'
          simpa using IsChain.cons hw h2
  | cons x xs ih =>
      intro a b c1 ys c2 h1 h2
      rw [List.cons_append] at h1
      cases h1 with
      | cons hw h' =>
          rw [List.cons_append, add_assoc]
          exact IsChain.cons hw (ih _ b _ ys c2 h' h2)

theorem walk_split {W : Nat → Nat → Option Int} {i j v : Nat} {L1 L2 : List Nat} {c : Int}
    (h : HasWalk W i j (L1 ++ v :: L2) c) :
    ∃ c1 c2, HasWalk W i v L1 c1 ∧ HasWalk W v j L2 c2 ∧ c = c1 + c2 := by
  rcases h with ⟨-, habs, -⟩ | hch
  · simp at habs
  · have hch' : IsChain W i (L1 ++ v :: (L2 ++ [j])) c := by
      have heq : L1 ++ v :: (L2 ++ [j]) = (L1 ++ v :: L2) ++ [j] := by simp
      rw [heq]
      exact hch
    obtain ⟨c1, c2, h1, h2, hc⟩ := chain_split W L1 i v (L2 ++ [j]) c hch'
    exact ⟨c1, c2, Or.inr h1, Or.inr h2, hc⟩

theorem walk_compose {W : Nat → Nat → Option Int} {i v j : Nat} {L1 L2 : List Nat}
    {c1 c2 : Int} (h1 : HasWalk W i v L1 c1) (h2 : HasWalk W v j L2 c2) :
    ∃ L3, HasWalk W i j L3 (c1 + c2) ∧ (∀ x ∈ L3, x ∈ L1 ∨ x = v ∨ x ∈ L2) ∧
      L3.length ≤ L1.length + L2.length + 1 := by
  rcases h1 with ⟨hiv, hL1, hc1⟩ | hch1
  · refine ⟨L2, ?_, fun x hx => Or.inr (Or.inr hx), by omega⟩
    rw [hc1, zero_add, hiv]
    exact h2
  · rcases h2 with ⟨hvj, hL2, hc2⟩ | hch2
    · refine ⟨L1, ?_, fun x hx => Or.inl hx, by omega⟩
      rw [hc2, add_zero, ← hvj]
      exact Or.inr hch1
    · have hglue := chain_glue W L1 i v c1 (L2 ++ [j]) c2 hch1 hch2
      refine ⟨L1 ++ v :: L2, Or.inr ?_, ?_, ?_⟩
      · have heq : (L1 ++ v :: L2) ++ [j] = L1 ++ v :: (L2 ++ [j]) := by simp
        rw [heq]
        exact hglue
      · intro x hx
        rcases List.mem_append.mp hx with h | h
        · exact Or.inl h
        · rcases List.mem_cons.mp h with h | h
          · exact Or.inr (Or.inl h)
          · exact Or.inr (Or.inr h)
      · simp [List.length_append]
        omega

theorem not_nodup_split :
    ∀ (L : List Nat), ¬L.Nodup → ∃ L1 v L2 L3, L = L1 ++ v :: (L2 ++ v :: L3) := by
  intro L
  induction L with
  | nil => intro h; exact absurd List.nodup_nil h
  | cons x L ih =>
      intro h
      by_cases hx : x ∈ L
      · obtain ⟨s, t, hst⟩ := List.append_of_mem hx
        exact ⟨[], x, s, t, by rw [hst]; rfl⟩
      · have hL : ¬L.Nodup := fun hnd => h (List.nodup_cons.mpr ⟨hx, hnd⟩)
        obtain ⟨L1, v, L2, L3, hsplit⟩ := ih hL
        exact ⟨x :: L1, v, L2, L3, by rw [hsplit]; rfl⟩

theorem chain_none {W : Nat → Nat → Option Int} (hW : ∀ u v, W u v = none)
    {a : Nat} {l : List Nat} {c : Int} (h : IsChain W a l c) : l = [] ∧ c = 0 := by
  cases h with
  | nil => exact ⟨rfl, rfl⟩
  | cons hw _ => rw [hW] at hw; cases hw

theorem chain_weight_le {W : Nat → Nat → Option Int} {B : Int}
    (hWB : ∀ u v w, W u v = some w → |w| ≤ B) :
    ∀ {a : Nat} {l : List Nat} {c : Int}, IsChain W a l c → |c| ≤ (l.length : Int) * B := by
  intro a l c h
  induction h with
  | nil => simp
  | @cons a' b w l' c' hw h' ih =>
      calc |w + c'| ≤ |w| + |c'| := abs_add _ _
        _ ≤ B + (l'.length : Int) * B := add_le_add (hWB _ _ _ hw) ih
        _ = (((b :: l').length : Nat) : Int) * B := by
            push_cast [List.length_cons]
            ring

theorem chain_mem_target {W : Nat → Nat → Option Int} :
    ∀ {a : Nat} {l : List Nat} {c : Int}, IsChain W a l c →
      ∀ v ∈ l, ∃ u w, W u v = some w := by
  intro a l c h
  induction h with
  | nil => intro v hv; exact absurd hv (List.not_mem_nil v)
  | cons hw h' ih =>
      intro v hv
      rcases List.mem_cons.mp hv with rfl | hv'
      · exact ⟨_, _, hw⟩
      · exact ih v hv'

theorem lastW_lt {edges : List (Nat × Nat × Int)} {n : Nat}
    (hin : ∀ e ∈ edges, e.1 < n ∧ e.2.1 < n) {u v : Nat} {w : Int}
    (h : lastW edges u v = some w) : u < n ∧ v < n :=
  hin _ (lastW_mem h)

theorem walk_vertex_lt {edges : List (Nat × Nat × Int)} {n : Nat}
    (hin : ∀ e ∈ edges, e.1 < n ∧ e.2.1 < n) {i j : Nat} {L : List Nat} {c : Int}
    (h : HasWalk (lastW edges) i j L c) : ∀ v ∈ L, v < n := by
  intro v hv
  rcases h with ⟨-, hL, -⟩ | hch
  · rw [hL] at hv
    cases hv
  · obtain ⟨u, w, hw⟩ := chain_mem_target hch v (List.mem_append.mpr (Or.inl hv))
    exact (lastW_lt hin hw).2

theorem nodup_length_le {n : Nat} :
    ∀ (L : List Nat), L.Nodup → (∀ v ∈ L, v < n) → L.length ≤ n := by
  intro L hnd hlt
  have h1 : L.toFinset.card = L.length := List.toFinset_card_of_nodup hnd
  have h2 : L.toFinset ⊆ Finset.range n := by
    intro v hv
    rw [Finset.mem_range]
    exact hlt v (List.mem_toFinset.mp hv)
  calc L.length = L.toFinset.card := h1.symm
    _ ≤ (Finset.range n).card := Finset.card_le_card h2
    _ = n := Finset.card_range n

theorem simple_walk_bound {W : Nat → Nat → Option Int} {n : Nat} {B : Int}
    (hWB : ∀ u v w, W u v = some w → |w| ≤ B) (hB0 : 0 ≤ B)
    (hWlt : ∀ u v w, W u v = some w → u < n ∧ v < n)
    {i j : Nat} {L : List Nat} {c : Int}
    (h : HasWalk W i j L c) (hnd : L.Nodup) (hiL : i ∉ L) (hi : i < n) :
    |c| ≤ (n : Int) * B := by
  rcases h with ⟨-, -, hc0⟩ | hch
  · rw [hc0, abs_zero]
    exact mul_nonneg (Int.natCast_nonneg n) hB0
  · have hb := chain_weight_le hWB hch
    have hlen : L.length + 1 ≤ n := by
      have hnd' : (i :: L).Nodup := List.nodup_cons.mpr ⟨hiL, hnd⟩
      have hlt : ∀ v ∈ i :: L, v < n := by
        intro v hv
        rcases List.mem_cons.mp hv with rfl | hv'
        · exact hi
        · obtain ⟨u, w, hw⟩ := chain_mem_target hch v (List.mem_append.mpr (Or.inl hv'))
          exact (hWlt u v w hw).2
      have := nodup_length_le (i :: L) hnd' hlt
      simpa using this
    calc |c| ≤ (((L ++ [j]).length : Nat) : Int) * B := hb
      _ = (((L.length + 1 : Nat)) : Int) * B := by simp
      _ ≤ (n : Int) * B := by
          apply mul_le_mul_of_nonneg_right _ hB0
          exact_mod_cast hlen

theorem walk_to_simple (W : Nat → Nat → Option Int) (hNNC : NoNegCycle W) :
    ∀ (len : Nat) (i j : Nat) (L : List Nat) (c : Int), L.length ≤ len →
      HasWalk W i j L c →
      ∃ L' c', HasWalk W i j L' c' ∧ c' ≤ c ∧ L'.Nodup ∧ i ∉ L' ∧ j ∉ L' ∧
        (∀ v ∈ L', v ∈ L) := by
  intro len
  induction len with
  | zero =>
      intro i j L c hlen hw
      have hL : L = [] := List.eq_nil_of_length_eq_zero (Nat.le_zero.mp hlen)
      subst hL
      exact ⟨[], c, hw, le_refl c, List.nodup_nil, List.not_mem_nil i, List.not_mem_nil j,
        fun v hv => absurd hv (List.not_mem_nil v)⟩
  | succ len ih =>
      intro i j L c hlen hw
      by_cases hiL : i ∈ L
      · obtain ⟨L1, L2, rfl⟩ := List.append_of_mem hiL
        obtain ⟨c1, c2, hw1, hw2, hc⟩ := walk_split hw
        have hc1 : 0 ≤ c1 := hNNC i L1 c1 hw1
        have hlen2 : L2.length ≤ len := by
          rw [List.length_append, List.length_cons] at hlen
          omega
        obtain ⟨L', c', hw', hle, hnd, hiN, hjN, hsub⟩ := ih i j L2 c2 hlen2 hw2
        refine ⟨L', c', hw', by omega, hnd, hiN, hjN, ?_⟩
        intro v hv
        exact List.mem_append.mpr (Or.inr (List.mem_cons_of_mem _ (hsub v hv)))
      · by_cases hjL : j ∈ L
        · obtain ⟨L1, L2, rfl⟩ := List.append_of_mem hjL
          obtain ⟨c1, c2, hw1, hw2, hc⟩ := walk_split hw
          have hc2 : 0 ≤ c2 := hNNC j L2 c2 hw2
          have hlen1 : L1.length ≤ len := by
            rw [List.length_append, List.length_cons] at hlen
            omega
          obtain ⟨L', c', hw', hle, hnd, hiN, hjN, hsub⟩ := ih i j L1 c1 hlen1 hw1
          refine ⟨L', c', hw', by omega, hnd, hiN, hjN, ?_⟩
          intro v hv
          exact List.mem_append.mpr (Or.inl (hsub v hv))
        · by_cases hnd : L.Nodup
          · exact ⟨L, c, hw, le_refl c, hnd, hiL, hjL, fun v hv => hv⟩
          · obtain ⟨L1, v, L2, L3, rfl⟩ := not_nodup_split L hnd
            obtain ⟨c1, crest, hw1, hwrest, hc⟩ := walk_split hw
            obtain ⟨cv, c3, hwv, hw3, hcrest⟩ := walk_split hwrest
            have hcv : 0 ≤ cv := hNNC v L2 cv hwv
            obtain ⟨L4, hw4, hsub4, hlen4⟩ := walk_compose hw1 hw3
            have hlen4' : L4.length ≤ len := by
              rw [List.length_append, List.length_cons, List.length_append,
                List.length_cons] at hlen
              omega
            obtain ⟨L', c', hw', hle, hnd', hiN, hjN, hsub⟩ := ih i j L4 (c1 + c3) hlen4' hw4
            refine ⟨L', c', hw', by omega, hnd', hiN, hjN, ?_⟩
            intro x hx
            rcases hsub4 x (hsub x hx) with h | h | h
            · exact List.mem_append.mpr (Or.inl h)
            · rw [h]
              exact List.mem_append.mpr (Or.inr (List.mem_cons_self _ _))
            · exact List.mem_append.mpr
                (Or.inr (List.mem_cons_of_mem _ (List.mem_append.mpr
                  (Or.inr (List.mem_cons_of_mem _ h)))))

theorem lastW_self_zero {edges : List (Nat × Nat × Int)}
    (hNNC : NoNegCycle (lastW edges))
    (hself : ∀ e ∈ edges, e.1 = e.2.1 → e.2.2 ≤ 0) {u : Nat} {w : Int}
    (h : lastW edges u u = some w) : w = 0 := by
  have h1 : w ≤ 0 := hself _ (lastW_mem h) rfl
  have h2 : 0 ≤ w := by
    have hc : IsChain (lastW edges) u ([] ++ [u]) (w + 0) := IsChain.cons h (IsChain.nil u)
    have := hNNC u [] (w + 0) (Or.inr hc)
    omega
  omega

/-! The master invariant of the relaxation: on a graph without negative
cycles, with zero-weight self-loops at most and with weights small enough
that no intermediate sum can overflow, after the stages 0..s-1 every finite
entry dist i j is the weight of some walk with intermediate vertices below
s, dist i j is a lower bound of every simple walk with intermediate
vertices below s, and the diagonal is identically zero. -/

theorem fw_master (n : Nat) (edges : List (Nat × Nat × Int)) (B : Int)
    (hin : ∀ e ∈ edges, e.1 < n ∧ e.2.1 < n)
    (hB0 : 0 ≤ B)
    (hWB : ∀ e ∈ edges, |e.2.2| ≤ B)
    (hBn : (n : Int) * B < 2 ^ 30)
    (hNNC : NoNegCycle (lastW edges))
    (hself : ∀ e ∈ edges, e.1 = e.2.1 → e.2.2 ≤ 0) :
    ∀ s, s ≤ n →
      (∀ i, i < n → (runStages n edges s).dist i i = 0) ∧
      (∀ i j, i < n → j < n → (runStages n edges s).dist i j ≠ INF →
        ∃ L, (∀ v ∈ L, v < s) ∧
          HasWalk (lastW edges) i j L ((runStages n edges s).dist i j)) ∧
      (∀ i j, i < n → j < n → ∀ L c, HasWalk (lastW edges) i j L c → L.Nodup →
        i ∉ L → j ∉ L → (∀ v ∈ L, v < s) → (runStages n edges s).dist i j ≤ c) := by
  have hWlast : ∀ u v w, lastW edges u v = some w → |w| ≤ B :=
    fun _ _ _ h => hWB _ (lastW_mem h)
  have hltlast : ∀ u v w, lastW edges u v = some w → u < n ∧ v < n :=
    fun _ _ _ h => hin _ (lastW_mem h)
  have hwr : ∀ e ∈ edges, -2147483648 ≤ e.2.2 ∧ e.2.2 ≤ INF := by
    intro e he
    have h1 := hWB e he
    have hn1 : (1 : Int) ≤ (n : Int) := by
      have h2 := (hin e he).1
      have h3 : 1 ≤ n := by omega
      exact_mod_cast h3
    have hBle : B ≤ (n : Int) * B := by
      calc B = 1 * B := (one_mul B).symm
        _ ≤ (n : Int) * B := mul_le_mul_of_nonneg_right hn1 hB0
    have h4 : -B ≤ e.2.2 := neg_le_of_abs_le h1
    have h5 : e.2.2 ≤ B := le_of_abs_le h1
    rw [INF_eq]
    constructor
    · linarith
    · linarith
  intro s
  induction s with
  | zero =>
      intro _
      refine ⟨?_, ?_, ?_⟩
      · intro i hi
        show (fwInit n edges).dist i i = 0
        rw [fwInit_dist]
        cases hlw : lastW edges i i with
        | some w => exact lastW_self_zero hNNC hself hlw
        | none =>
            show (if i = i ∧ i < n then (0 : Int) else INF) = 0
            rw [if_pos ⟨rfl, hi⟩]
      · intro i j hi hj hne
        have e0 : runStages n edges 0 = fwInit n edges := rfl
        rw [e0, fwInit_dist] at hne ⊢
        cases hlw : lastW edges i j with
        | some w =>
            refine ⟨[], fun v hv => absurd hv (List.not_mem_nil v), ?_⟩
            show HasWalk (lastW edges) i j [] w
            right
            have hc := IsChain.cons hlw (IsChain.nil j)
            simpa using hc
        | none =>
            by_cases hij : i = j ∧ i < n
            · rw [if_pos hij]
              refine ⟨[], fun v hv => absurd hv (List.not_mem_nil v), ?_⟩
              rw [← hij.1]
              exact hasWalk_trivial _ i
            · rw [hlw] at hne
              have hne' : (if i = j ∧ i < n then (0 : Int) else INF) ≠ INF := hne
              rw [if_neg hij] at hne'
              exact absurd rfl hne'
      · intro i j hi hj L c hwc hnd hiL hjL hvs
        have hL : L = [] := by
          cases L with
          | nil => rfl
          | cons x L' => exact absurd (hvs x (List.mem_cons_self x L')) (Nat.not_lt_zero x)
        subst hL
        have e0 : runStages n edges 0 = fwInit n edges := rfl
        rw [e0, fwInit_dist]
        rcases hwc with ⟨hij, -, hc⟩ | hch
        · subst hij
          rw [hc]
          cases hlw : lastW edges i i with
          | some w =>
              have hw0 : w = 0 := lastW_self_zero hNNC hself hlw
              show w ≤ 0
              omega
          | none =>
              show (if i = i ∧ i < n then (0 : Int) else INF) ≤ 0
              rw [if_pos ⟨rfl, hi⟩]
        · rw [List.nil_append] at hch
          cases hch with
          | @cons a b w l c0 hw h' =>
              cases h'
              rw [hw]
              show w ≤ w + 0
              omega
  | succ s ih =>
      intro hs1
      have hsn : s < n := hs1
      have hsle : s ≤ n := Nat.le_of_lt hsn
      obtain ⟨I2, I3, I4⟩ := ih hsle
      have hrangeM := runStages_range n edges hwr s
      have hkkM : (runStages n edges s).dist s s = 0 := I2 s hsn
      have hpw := relaxK_pointwise n s (runStages n edges s) hrangeM hkkM
      have hstep : runStages n edges (s + 1) = relaxK n s (runStages n edges s) :=
        runStages_succ n edges s
      have hDb : ∀ i j, i < n → j < n → (runStages n edges s).dist i j ≠ INF →
          -((n : Int) * B) ≤ (runStages n edges s).dist i j ∧
            (runStages n edges s).dist i j ≤ (n : Int) * B := by
        intro i j hi hj hne
        obtain ⟨L, hLs, hwL⟩ := I3 i j hi hj hne
        obtain ⟨L', c', hw', hle, hnd', hiN', hjN', hsub'⟩ :=
          walk_to_simple _ hNNC L.length i j L _ (le_refl _) hwL
        have hvlt' : ∀ v ∈ L', v < s := fun v hv => hLs v (hsub' v hv)
        have hupper := I4 i j hi hj L' c' hw' hnd' hiN' hjN' hvlt'
        have hb : |c'| ≤ (n : Int) * B :=
          simple_walk_bound hWlast hB0 hltlast hw' hnd' hiN' hi
        have hlb : -((n : Int) * B) ≤ c' := neg_le_of_abs_le hb
        have hub : c' ≤ (n : Int) * B := le_of_abs_le hb
        exact ⟨by linarith, by linarith⟩
      refine ⟨?_, ?_, ?_⟩
      · intro i hi
        rw [hstep]
        have hd := (hpw i i).1
        by_cases hc : i < n ∧ i < n ∧ (runStages n edges s).dist i s ≠ INF ∧
            (runStages n edges s).dist s i ≠ INF ∧
            wrap32 ((runStages n edges s).dist i s + (runStages n edges s).dist s i) <
              (runStages n edges s).dist i i
        · exfalso
          obtain ⟨-, -, his, hsi, hlt⟩ := hc
          obtain ⟨L1, hL1, hw1⟩ := I3 i s hi hsn his
          obtain ⟨L2, hL2, hw2⟩ := I3 s i hsn hi hsi
          obtain ⟨L3, hw3, -, -⟩ := walk_compose hw1 hw2
          have hge : 0 ≤ (runStages n edges s).dist i s + (runStages n edges s).dist s i :=
            hNNC i L3 _ hw3
          have hb1 := hDb i s hi hsn his
          have hb2 := hDb s i hsn hi hsi
          have hwrap : wrap32 ((runStages n edges s).dist i s +
              (runStages n edges s).dist s i) =
              (runStages n edges s).dist i s + (runStages n edges s).dist s i := by
            apply wrap32_eq_self
            · linarith
            · rw [INF_eq]
              linarith
          rw [hwrap] at hlt
          rw [I2 i hi] at hlt
          linarith
        · rw [hd, if_neg hc]
          exact I2 i hi
      · intro i j hi hj hne
        rw [hstep] at hne ⊢
        have hd := (hpw i j).1
        rw [hd] at hne ⊢
        by_cases hc : i < n ∧ j < n ∧ (runStages n edges s).dist i s ≠ INF ∧
            (runStages n edges s).dist s j ≠ INF ∧
            wrap32 ((runStages n edges s).dist i s + (runStages n edges s).dist s j) <
              (runStages n edges s).dist i j
        · rw [if_pos hc]
          obtain ⟨-, -, his, hsj, hlt⟩ := hc
          obtain ⟨L1, hL1, hw1⟩ := I3 i s hi hsn his
          obtain ⟨L2, hL2, hw2⟩ := I3 s j hsn hj hsj
          obtain ⟨L3, hw3, hmem3, -⟩ := walk_compose hw1 hw2
          have hb1 := hDb i s hi hsn his
          have hb2 := hDb s j hsn hj hsj
          have hwrap : wrap32 ((runStages n edges s).dist i s +
              (runStages n edges s).dist s j) =
              (runStages n edges s).dist i s + (runStages n edges s).dist s j := by
            apply wrap32_eq_self
            · linarith
            · rw [INF_eq]
              linarith
          rw [hwrap]
          refine ⟨L3, ?_, hw3⟩
          intro v hv
          rcases hmem3 v hv with h | h | h
          · exact Nat.lt_succ_of_lt (hL1 v h)
          · rw [h]
            exact Nat.lt_succ_self s
          · exact Nat.lt_succ_of_lt (hL2 v h)
        · rw [if_neg hc] at hne ⊢
          obtain ⟨L, hL, hwL⟩ := I3 i j hi hj hne
          exact ⟨L, fun v hv => Nat.lt_succ_of_lt (hL v hv), hwL⟩
      · intro i j hi hj L c hwc hnd hiL hjL hvs
        rw [hstep]
        by_cases hsL : s ∈ L
        · obtain ⟨L1, L2, rfl⟩ := List.append_of_mem hsL
          obtain ⟨hndL1, hndsL2, hdisj⟩ := List.nodup_append.mp hnd
          obtain ⟨hsL2, hndL2⟩ := List.nodup_cons.mp hndsL2
          have hsL1 : s ∉ L1 := fun h => hdisj h (List.mem_cons_self s L2)
          obtain ⟨c1, c2, hw1, hw2, hc⟩ := walk_split hwc
          have hiL1 : i ∉ L1 := fun h => hiL (List.mem_append.mpr (Or.inl h))
          have hjL2 : j ∉ L2 :=
            fun h => hjL (List.mem_append.mpr (Or.inr (List.mem_cons_of_mem _ h)))
          have hvL1 : ∀ v ∈ L1, v < s := by
            intro v hv
            have h1 : v < s + 1 := hvs v (List.mem_append.mpr (Or.inl hv))
            have h2 : v ≠ s := fun he => hsL1 (he ▸ hv)
            omega
          have hvL2 : ∀ v ∈ L2, v < s := by
            intro v hv
            have h1 : v < s + 1 :=
              hvs v (List.mem_append.mpr (Or.inr (List.mem_cons_of_mem _ hv)))
            have h2 : v ≠ s := fun he => hsL2 (he ▸ hv)
            omega
          have hD1 : (runStages n edges s).dist i s ≤ c1 :=
            I4 i s hi hsn L1 c1 hw1 hndL1 hiL1 hsL1 hvL1
          have hD2 : (runStages n edges s).dist s j ≤ c2 :=
            I4 s j hsn hj L2 c2 hw2 hndL2 hsL2 hjL2 hvL2
          have hb1 : |c1| ≤ (n : Int) * B :=
            simple_walk_bound hWlast hB0 hltlast hw1 hndL1 hiL1 hi
          have hb2 : |c2| ≤ (n : Int) * B :=
            simple_walk_bound hWlast hB0 hltlast hw2 hndL2 hsL2 hsn
          have hub1 : c1 ≤ (n : Int) * B := le_of_abs_le hb1
          have hub2 : c2 ≤ (n : Int) * B := le_of_abs_le hb2
          have hne1 : (runStages n edges s).dist i s ≠ INF := by
            intro he
            rw [he, INF_eq] at hD1
            linarith
          have hne2 : (runStages n edges s).dist s j ≠ INF := by
            intro he
            rw [he, INF_eq] at hD2
            linarith
          have hDb1 := hDb i s hi hsn hne1
          have hDb2 := hDb s j hsn hj hne2
          have hwrap : wrap32 ((runStages n edges s).dist i s +
              (runStages n edges s).dist s j) =
              (runStages n edges s).dist i s + (runStages n edges s).dist s j := by
            apply wrap32_eq_self
            · linarith
            · rw [INF_eq]
              linarith
          have hd := (hpw i j).1
          rw [hd]
          by_cases hcnd : i < n ∧ j < n ∧ (runStages n edges s).dist i s ≠ INF ∧
              (runStages n edges s).dist s j ≠ INF ∧
              wrap32 ((runStages n edges s).dist i s + (runStages n edges s).dist s j) <
                (runStages n edges s).dist i j
          · rw [if_pos hcnd, hwrap]
            linarith
          · rw [if_neg hcnd]
            have hnlt : ¬ wrap32 ((runStages n edges s).dist i s +
                (runStages n edges s).dist s j) < (runStages n edges s).dist i j := by
              intro hlt
              exact hcnd ⟨hi, hj, hne1, hne2, hlt⟩
            push_neg at hnlt
            rw [hwrap] at hnlt
            linarith
        · have hvs' : ∀ v ∈ L, v < s := by
            intro v hv
            have h1 := hvs v hv
            have h2 : v ≠ s := fun he => hsL (he ▸ hv)
            omega
          have hmono : (relaxK n s (runStages n edges s)).dist i j ≤
              (runStages n edges s).dist i j := relaxK_dist_le n s _ i j
          exact le_trans hmono (I4 i j hi hj L c hwc hnd hiL hjL hvs')

/-- Claim C1 (counterexample): for numVertices = 1 and the in-range edge
list [(0, 0, 5)], the returned flag is false yet dist[0][0] = 5, which is
neither the true shortest-path weight from 0 to 0 (the empty walk has
weight 0, so no shortest weight can exceed 0) nor the INT_MAX sentinel, so
the claim as stated fails. -/
theorem fw_C1_counterexample :
    (floydWarshall 1 [(0, 0, 5)]).2 = false ∧
    getM (floydWarshall 1 [(0, 0, 5)]).1.1 0 0 = some 5 ∧
    HasWalk (lastW [(0, 0, 5)]) 0 0 [] 0 ∧
    ¬ IsShortest (lastW [(0, 0, 5)]) 0 0 5 ∧ (5 : Int) ≠ INF := by
  refine ⟨by decide, by decide, hasWalk_trivial _ 0, ?_, by decide⟩
  intro hs
  have h5 := hs.2 [] 0 (hasWalk_trivial _ 0)
  norm_num at h5

/-- Claim C1 (amended): if every edge endpoint lies in [0, n), no
self-loop edge has positive weight, every weight is bounded by some B ≥ 0
with n * B < 2^30 (so that no intermediate sum can overflow), and the
graph defined by last-edge-wins has no negative cycle, then the returned
flag is false and every entry dist[i][j] is the true shortest-path weight
from i to j, or the INT_MAX sentinel exactly when j is unreachable
from i. -/
theorem fw_C1_amended (n : Nat) (edges : List (Nat × Nat × Int)) (B : Int)
    (hin : ∀ e ∈ edges, e.1 < n ∧ e.2.1 < n)
    (hB0 : 0 ≤ B)
    (hWB : ∀ e ∈ edges, |e.2.2| ≤ B)
    (hBn : (n : Int) * B < 2 ^ 30)
    (hNNC : NoNegCycle (lastW edges))
    (hself : ∀ e ∈ edges, e.1 = e.2.1 → e.2.2 ≤ 0) :
    (floydWarshall n edges).2 = false ∧
    ∀ i j, i < n → j < n →
      ∃ d, getM (floydWarshall n edges).1.1 i j = some d ∧
        ((Reaches (lastW edges) i j ∧ IsShortest (lastW edges) i j d) ∨
         (¬ Reaches (lastW edges) i j ∧ d = INF)) := by
  obtain ⟨I2, I3, I4⟩ := fw_master n edges B hin hB0 hWB hBn hNNC hself n (le_refl n)
  have hWlast : ∀ u v w, lastW edges u v = some w → |w| ≤ B :=
    fun _ _ _ h => hWB _ (lastW_mem h)
  have hltlast : ∀ u v w, lastW edges u v = some w → u < n ∧ v < n :=
    fun _ _ _ h => hin _ (lastW_mem h)
  have hfw : fwLoop n (fwInit n edges) = runStages n edges n :=
    fwLoop_eq_runStages n edges
  constructor
  · show negCycleFlag n (fwLoop n (fwInit n edges)).dist = false
    rw [hfw]
    cases hflag : negCycleFlag n (runStages n edges n).dist with
    | false => rfl
    | true =>
        exfalso
        obtain ⟨i, hi, hlt⟩ := (negCycleFlag_iff n _).mp hflag
        rw [I2 i hi] at hlt
        exact absurd hlt (by norm_num)
  · intro i j hi hj
    have hget : getM (floydWarshall n edges).1.1 i j =
        some ((fwLoop n (fwInit n edges)).dist i j) := getM_toMat _ hi hj
    refine ⟨(fwLoop n (fwInit n edges)).dist i j, hget, ?_⟩
    rw [hfw]
    by_cases hr : Reaches (lastW edges) i j
    · left
      refine ⟨hr, ?_, ?_⟩
      · obtain ⟨L, c, hwLc⟩ := hr
        obtain ⟨L', c', hw', hle', hnd', hiN', hjN', hsub'⟩ :=
          walk_to_simple _ hNNC L.length i j L c (le_refl _) hwLc
        have hvlt' : ∀ v ∈ L', v < n :=
          fun v hv => walk_vertex_lt hin hwLc v (hsub' v hv)
        have hDle : (runStages n edges n).dist i j ≤ c' :=
          I4 i j hi hj L' c' hw' hnd' hiN' hjN' hvlt'
        have hb' : |c'| ≤ (n : Int) * B :=
          simple_walk_bound hWlast hB0 hltlast hw' hnd' hiN' hi
        have hub' : c' ≤ (n : Int) * B := le_of_abs_le hb'
        have hne : (runStages n edges n).dist i j ≠ INF := by
          intro he
          rw [he, INF_eq] at hDle
          linarith
        obtain ⟨L0, hL0, hw0⟩ := I3 i j hi hj hne
        exact ⟨L0, hw0⟩
      · intro L d hwd
        obtain ⟨L', d', hw', hle', hnd', hiN', hjN', hsub'⟩ :=
          walk_to_simple _ hNNC L.length i j L d (le_refl _) hwd
        have hvlt' : ∀ v ∈ L', v < n :=
          fun v hv => walk_vertex_lt hin hwd v (hsub' v hv)
        have hDle : (runStages n edges n).dist i j ≤ d' :=
          I4 i j hi hj L' d' hw' hnd' hiN' hjN' hvlt'
        linarith
    · right
      refine ⟨hr, ?_⟩
      by_contra hne
      obtain ⟨L0, hL0, hw0⟩ := I3 i j hi hj hne
      exact hr ⟨L0, _, hw0⟩

/-- Claim C1 (witness): the amended theorem applied to the concrete input
numVertices = 1 with an empty edge list and bound B = 0. -/
theorem fw_C1_witness :
    (floydWarshall 1 ([] : List (Nat × Nat × Int))).2 = false ∧
    ∀ i j, i < 1 → j < 1 →
      ∃ d, getM (floydWarshall 1 ([] : List (Nat × Nat × Int))).1.1 i j = some d ∧
        ((Reaches (lastW ([] : List (Nat × Nat × Int))) i j ∧
            IsShortest (lastW ([] : List (Nat × Nat × Int))) i j d) ∨
         (¬ Reaches (lastW ([] : List (Nat × Nat × Int))) i j ∧ d = INF)) := by
  apply fw_C1_amended 1 ([] : List (Nat × Nat × Int)) 0
  · intro e he
    cases he
  · exact le_refl 0
  · intro e he
    cases he
  · norm_num
  · intro i L c hw
    rcases hw with ⟨-, -, hc⟩ | hch
    · omega
    · have h0 := chain_none (fun u v => rfl) hch
      have h2 : L ++ [i] = [] := h0.1
      have h3 := List.append_eq_nil.mp h2
      cases h3.2
  · intro e he
    cases he

end FW
